import Mathlib

/-!
Verification of the collaborative canvas core (`canvas-schema`, `canvas-core`,
`sync-server`) against its natural-language specification.

The Rust sources are shallowly embedded: pure functions become Lean functions,
stateful methods become explicit state-passing functions, `f64` arithmetic is
modelled exactly over `ℚ`, Rust `String`s used as order keys are modelled as
`List Char` compared with byte-wise lexicographic order (`List.Lex (· < ·)`),
and `HashMap`s become association lists with unique keys.
-/

namespace Canvas

/-! ## Geometry primitives (canvas-schema/src/types.rs) -/

/-- `Point` from types.rs, with `f64` fields modelled over `ℚ`. -/
structure Point where
  x : ℚ
  y : ℚ
deriving DecidableEq, Repr

/-- `BoundingBox` from types.rs. -/
structure BoundingBox where
  x : ℚ
  y : ℚ
  width : ℚ
  height : ℚ
deriving DecidableEq, Repr

/-- `BoundingBox::contains` from types.rs. -/
def BoundingBox.contains (b : BoundingBox) (p : Point) : Bool :=
  p.x ≥ b.x && p.x ≤ b.x + b.width && p.y ≥ b.y && p.y ≤ b.y + b.height

/-- `Transform` from types.rs: a 2×3 affine matrix. -/
structure Transform where
  a : ℚ
  b : ℚ
  c : ℚ
  d : ℚ
  tx : ℚ
  ty : ℚ
deriving DecidableEq, Repr

/-- `Transform::IDENTITY` from types.rs. -/
def Transform.IDENTITY : Transform := ⟨1, 0, 0, 1, 0, 0⟩

/-- `Transform::multiply` from types.rs. -/
def Transform.multiply (s o : Transform) : Transform :=
  { a := s.a * o.a + s.c * o.b
    b := s.b * o.a + s.d * o.b
    c := s.a * o.c + s.c * o.d
    d := s.b * o.c + s.d * o.d
    tx := s.a * o.tx + s.c * o.ty + s.tx
    ty := s.b * o.tx + s.d * o.ty + s.ty }

/-! ## Fractional z-index (canvas-schema/src/utils.rs)

Z-index strings are modelled as `List Char`; Rust's `str` ordering on the
base-62 alphabet coincides with `List.Lex (· < ·)` on the char lists. -/

/-- The `CHARS` base-62 alphabet from `generate_z_index_between` in utils.rs. -/
def zalphabet : List Char :=
  ['0', '1', '2', '3', '4', '5', '6', '7', '8', '9',
   'A', 'B', 'C', 'D', 'E', 'F', 'G', 'H', 'I', 'J', 'K', 'L', 'M',
   'N', 'O', 'P', 'Q', 'R', 'S', 'T', 'U', 'V', 'W', 'X', 'Y', 'Z',
   'a', 'b', 'c', 'd', 'e', 'f', 'g', 'h', 'i', 'j', 'k', 'l', 'm',
   'n', 'o', 'p', 'q', 'r', 's', 't', 'u', 'v', 'w', 'x', 'y', 'z']

/-- `index_char` from utils.rs: `CHARS[i.min(CHARS.len() - 1)]`. -/
def index_char (i : Nat) : Char :=
  zalphabet.getD (min i (zalphabet.length - 1)) '0'

/-- Lexicographic strict order on z-index strings
(Rust's byte-wise `str` ordering, restricted to ASCII). -/
def zlt (s t : List Char) : Prop := List.Lex (· < ·) s t

instance : DecidableRel zlt := fun s t =>
  inferInstanceAs (Decidable (List.Lex (· < ·) s t))

/-- `generate_z_index_between` from utils.rs.  When both bounds are present the
code appends the alphabet's midpoint character to `before` (ignoring `after`). -/
def generate_z_index_between : Option (List Char) → Option (List Char) → List Char
  | none, none => ['Z', 'z']
  | none, some a => '0' :: a
  | some b, none => b ++ ['z']
  | some b, some _ => b ++ [index_char (zalphabet.length / 2)]

/-- `generate_z_index_after` from utils.rs. -/
def generate_z_index_after (current : Option (List Char)) : List Char :=
  generate_z_index_between current none

/-- `generate_z_index_before` from utils.rs. -/
def generate_z_index_before (current : Option (List Char)) : List Char :=
  generate_z_index_between none current

/-- A list is lexicographically below itself extended by anything nonempty. -/
theorem zlt_append_cons (l : List Char) (c : Char) (rest : List Char) :
    zlt l (l ++ c :: rest) := by
  induction l with
  | nil => exact List.Lex.nil
  | cons x xs ih => exact List.Lex.cons ih

/-- Prepending `'0'` goes strictly down provided the string is over characters
`≥ '0'` and is not all-`'0'`. -/
theorem zlt_zero_cons (a : List Char) (hge : ∀ ch ∈ a, '0' ≤ ch)
    (hne : ∃ ch ∈ a, '0' < ch) : zlt ('0' :: a) a := by
  induction a with
  | nil => obtain ⟨ch, h, _⟩ := hne; cases h
  | cons x xs ih =>
    rcases lt_or_eq_of_le (hge x (by simp)) with hlt | heq
    · exact List.Lex.rel hlt
    · subst heq
      refine List.Lex.cons (ih (fun ch h => hge ch (by simp [h])) ?_)
      obtain ⟨ch, hmem, hlt⟩ := hne
      rcases List.mem_cons.mp hmem with rfl | hmem
      · exact absurd hlt (lt_irrefl _)
      · exact ⟨ch, hmem, hlt⟩

/-- Every alphabet character is `≥ '0'`. -/
theorem zalphabet_ge_zero : ∀ ch ∈ zalphabet, '0' ≤ ch := by decide

/-- C1 counterexample: with `b = "a" < a = "aA"`, `generate_z_index_between`
returns `"aV"`, which is NOT below the upper bound `a`; and with `a = "aV"` the
result EQUALS the upper bound. -/
theorem c1_between_not_less_counterexample :
    zlt ['a'] ['a', 'A'] ∧
    generate_z_index_between (some ['a']) (some ['a', 'A']) = ['a', 'V'] ∧
    ¬ zlt (generate_z_index_between (some ['a']) (some ['a', 'A'])) ['a', 'A'] ∧
    generate_z_index_between (some ['a']) (some ['a', 'V']) = ['a', 'V'] := by
  refine ⟨by decide, by decide, by decide, by decide⟩

/-- C1 (amended): `generate_z_index_between(Some b, Some a)` and
`generate_z_index_after(Some b)` are strictly greater than `b`;
`generate_z_index_before(Some a)` is strictly less than `a` provided `a` is over
the base-62 alphabet and contains a character other than `'0'`.  The result of
`between` is not in general strictly below `a`, nor distinct from `a`. -/
theorem c1_z_index_bounds :
    (∀ b a : List Char, zlt b (generate_z_index_between (some b) (some a))) ∧
    (∀ b : List Char, zlt b (generate_z_index_after (some b))) ∧
    (∀ a : List Char, (∀ ch ∈ a, ch ∈ zalphabet) → (∃ ch ∈ a, ch ≠ '0') →
      zlt (generate_z_index_before (some a)) a) := by
  refine ⟨?_, ?_, ?_⟩
  · intro b a
    exact zlt_append_cons b _ []
  · intro b
    exact zlt_append_cons b 'z' []
  · intro a halpha hne
    have hge : ∀ ch ∈ a, '0' ≤ ch := fun ch h => zalphabet_ge_zero ch (halpha ch h)
    have hlt : ∃ ch ∈ a, '0' < ch := by
      obtain ⟨ch, hmem, hne0⟩ := hne
      exact ⟨ch, hmem, lt_of_le_of_ne (hge ch hmem) (Ne.symm hne0)⟩
    exact zlt_zero_cons a hge hlt

/-- C1 witness: the amended bounds at concrete inputs. -/
theorem c1_z_index_bounds_witness :
    zlt ['a'] (generate_z_index_between (some ['a']) (some ['c'])) ∧
    zlt ['a'] (generate_z_index_after (some ['a'])) ∧
    zlt (generate_z_index_before (some ['c'])) ['c'] :=
  ⟨c1_z_index_bounds.1 ['a'] ['c'], c1_z_index_bounds.2.1 ['a'],
   c1_z_index_bounds.2.2 ['c'] (by decide) (by decide)⟩

/-! ## Camera (canvas-core/src/camera.rs) -/

/-- `Camera` from camera.rs, `f64` fields modelled over `ℚ`. -/
structure Camera where
  x : ℚ
  y : ℚ
  zoom : ℚ
  viewport_width : ℚ
  viewport_height : ℚ
deriving DecidableEq, Repr

/-- `Camera::MIN_ZOOM`. -/
def Camera.MIN_ZOOM : ℚ := 1 / 100

/-- `Camera::MAX_ZOOM`. -/
def Camera.MAX_ZOOM : ℚ := 256

/-- Rust `f64::clamp` for finite values: `self < min → min`, `self > max → max`,
otherwise `self`. -/
def clampQ (v lo hi : ℚ) : ℚ :=
  if v < lo then lo else if v > hi then hi else v

/-- `Camera::screen_to_canvas` from camera.rs. -/
def Camera.screen_to_canvas (c : Camera) (sx sy : ℚ) : Point :=
  { x := (sx - c.viewport_width / 2) / c.zoom + c.x
    y := (sy - c.viewport_height / 2) / c.zoom + c.y }

/-- `Camera::canvas_to_screen` from camera.rs. -/
def Camera.canvas_to_screen (c : Camera) (cx cy : ℚ) : Point :=
  { x := (cx - c.x) * c.zoom + c.viewport_width / 2
    y := (cy - c.y) * c.zoom + c.viewport_height / 2 }

/-- `Camera::zoom_to` from camera.rs: clamp the new zoom, then shift the pan so
that the canvas point that was under the given screen anchor stays under it. -/
def Camera.zoom_to (c : Camera) (new_zoom sx sy : ℚ) : Camera :=
  let nz := clampQ new_zoom Camera.MIN_ZOOM Camera.MAX_ZOOM
  let canvas_point := c.screen_to_canvas sx sy
  let c1 : Camera := { c with zoom := nz }
  let new_screen := c1.canvas_to_screen canvas_point.x canvas_point.y
  { c1 with
    x := c1.x + (new_screen.x - sx) / c1.zoom
    y := c1.y + (new_screen.y - sy) / c1.zoom }

theorem clampQ_mem (v lo hi : ℚ) (h : lo ≤ hi) :
    lo ≤ clampQ v lo hi ∧ clampQ v lo hi ≤ hi := by
  unfold clampQ
  split_ifs with h1 h2
  · exact ⟨le_refl _, h⟩
  · exact ⟨h, le_refl _⟩
  · exact ⟨le_of_not_lt h1, le_of_not_lt h2⟩

theorem clampQ_of_mem (v lo hi : ℚ) (h1 : lo ≤ v) (h2 : v ≤ hi) :
    clampQ v lo hi = v := by
  unfold clampQ
  rw [if_neg (not_lt.mpr h1), if_neg (not_lt.mpr h2)]

/-- C6: for any camera with nonzero zoom, `zoom_to` clamps the requested zoom
into `[0.01, 256]` exactly (values already in range are kept), and the canvas
point that `screen_to_canvas` mapped the anchor to before the call is mapped
back to the anchor by `canvas_to_screen` afterwards (exact arithmetic). -/
theorem c6_zoom_to_clamps_and_fixes_anchor (c : Camera) (new_zoom sx sy : ℚ)
    (hz : c.zoom ≠ 0) :
    (Camera.MIN_ZOOM ≤ (c.zoom_to new_zoom sx sy).zoom ∧
      (c.zoom_to new_zoom sx sy).zoom ≤ Camera.MAX_ZOOM) ∧
    (c.zoom_to new_zoom sx sy).zoom = clampQ new_zoom Camera.MIN_ZOOM Camera.MAX_ZOOM ∧
    (Camera.MIN_ZOOM ≤ new_zoom → new_zoom ≤ Camera.MAX_ZOOM →
      (c.zoom_to new_zoom sx sy).zoom = new_zoom) ∧
    (c.zoom_to new_zoom sx sy).canvas_to_screen
        (c.screen_to_canvas sx sy).x (c.screen_to_canvas sx sy).y = ⟨sx, sy⟩ := by
  have hmm : Camera.MIN_ZOOM ≤ Camera.MAX_ZOOM := by norm_num [Camera.MIN_ZOOM, Camera.MAX_ZOOM]
  have hbounds := clampQ_mem new_zoom Camera.MIN_ZOOM Camera.MAX_ZOOM hmm
  have hpos : (0 : ℚ) < clampQ new_zoom Camera.MIN_ZOOM Camera.MAX_ZOOM := by
    have : (0 : ℚ) < Camera.MIN_ZOOM := by norm_num [Camera.MIN_ZOOM]
    linarith [hbounds.1]
  have hnz : clampQ new_zoom Camera.MIN_ZOOM Camera.MAX_ZOOM ≠ 0 := ne_of_gt hpos
  refine ⟨?_, ?_, ?_, ?_⟩
  · simpa [Camera.zoom_to] using hbounds
  · simp [Camera.zoom_to]
  · intro h1 h2
    simp [Camera.zoom_to, clampQ_of_mem new_zoom _ _ h1 h2]
  · simp only [Camera.zoom_to, Camera.canvas_to_screen, Camera.screen_to_canvas]
    refine congrArg₂ Point.mk ?_ ?_ <;> field_simp <;> ring

/-- C6 witness: concrete camera (viewport 800×600, zoom 2, x=50, y=-30),
requesting zoom 4 anchored at screen (400, 300). -/
theorem c6_zoom_to_witness :
    (Camera.MIN_ZOOM ≤ ((⟨50, -30, 2, 800, 600⟩ : Camera).zoom_to 4 400 300).zoom ∧
      ((⟨50, -30, 2, 800, 600⟩ : Camera).zoom_to 4 400 300).zoom ≤ Camera.MAX_ZOOM) ∧
    ((⟨50, -30, 2, 800, 600⟩ : Camera).zoom_to 4 400 300).zoom
        = clampQ 4 Camera.MIN_ZOOM Camera.MAX_ZOOM ∧
    (Camera.MIN_ZOOM ≤ 4 → (4 : ℚ) ≤ Camera.MAX_ZOOM →
      ((⟨50, -30, 2, 800, 600⟩ : Camera).zoom_to 4 400 300).zoom = 4) ∧
    ((⟨50, -30, 2, 800, 600⟩ : Camera).zoom_to 4 400 300).canvas_to_screen
        ((⟨50, -30, 2, 800, 600⟩ : Camera).screen_to_canvas 400 300).x
        ((⟨50, -30, 2, 800, 600⟩ : Camera).screen_to_canvas 400 300).y = ⟨400, 300⟩ :=
  c6_zoom_to_clamps_and_fixes_anchor ⟨50, -30, 2, 800, 600⟩ 4 400 300 (by decide)

/-! ## Wire protocol types (sync-server/src/protocol.rs) -/

/-- `PresenceStatus` from protocol.rs. -/
inductive PresenceStatus where
  | Active
  | Idle
  | Away
deriving DecidableEq, Repr

/-- `CursorPosition` from protocol.rs. -/
structure CursorPosition where
  x : ℚ
  y : ℚ
  viewport_x : Option ℚ
  viewport_y : Option ℚ
deriving DecidableEq, Repr

/-- `SelectionBounds` from protocol.rs. -/
structure SelectionBounds where
  x : ℚ
  y : ℚ
  width : ℚ
  height : ℚ
deriving DecidableEq, Repr

/-- `Selection` from protocol.rs. -/
structure Selection where
  element_ids : List String
  bounds : Option SelectionBounds
deriving DecidableEq, Repr

/-- `ClientInfo` from protocol.rs. -/
structure ClientInfo where
  client_id : String
  display_name : String
  color : String
  status : PresenceStatus
  cursor_position : Option CursorPosition
  selection : Option Selection
deriving DecidableEq, Repr

/-- `ErrorCode` from protocol.rs. -/
inductive ErrorCode where
  | DocumentNotFound
  | InvalidMessage
  | SyncError
  | AuthError
  | RateLimited
  | InternalError
deriving DecidableEq, Repr

/-- `ServerMessage` from protocol.rs (`u64` modelled as `Nat`). -/
inductive ServerMessage where
  | JoinAck (document_id client_id document_state : String) (version : Nat)
      (connected_clients : List ClientInfo)
  | ChangeBroadcast (document_id source_client_id change : String) (version : Nat)
  | SyncResponse (document_id : String) (sync_message : Option String) (is_complete : Bool)
  | CursorBroadcast (document_id client_id : String) (position : CursorPosition)
  | SelectionBroadcast (document_id client_id : String) (selection : Selection)
  | PresenceBroadcast (document_id client_id : String) (status : PresenceStatus)
  | ClientJoined (document_id : String) (client_info : ClientInfo)
  | ClientLeft (document_id client_id : String)
  | Error (code : ErrorCode) (message : String) (document_id : Option String)
  | Pong (server_time : String)
deriving DecidableEq, Repr

/-! ## Session and broadcast (sync-server/src/session.rs)

A client's `sender` (`mpsc::UnboundedSender<ServerMessage>`) is modelled as the
list of messages that have been sent on it; the session's internal
`broadcast_tx` (`tokio::sync::broadcast` channel) is modelled as the list of
`BroadcastMessage`s published on it. -/

/-- `BroadcastMessage` from session.rs. -/
structure BroadcastMessage where
  message : ServerMessage
  exclude_client : Option String
deriving DecidableEq, Repr

/-- `ClientConnection` from session.rs. -/
structure ClientConnection where
  client_id : String
  display_name : String
  color : String
  status : PresenceStatus
  cursor_position : Option CursorPosition
  selection : Option Selection
  sender : List ServerMessage
  session_token : String
deriving DecidableEq, Repr

/-- `DocumentSession` from session.rs. -/
structure DocumentSession where
  document_id : String
  clients : List (String × ClientConnection)
  broadcast_tx : List BroadcastMessage
  version : Nat
deriving DecidableEq, Repr

/-- `DocumentSession::broadcast` from session.rs: the body is a single
`self.broadcast_tx.send(BroadcastMessage { message, exclude_client })` whose
result is discarded.  It publishes on the internal broadcast channel and never
touches any client's `sender`. -/
def DocumentSession.broadcast (s : DocumentSession) (message : ServerMessage)
    (exclude_client : Option String) : DocumentSession :=
  { s with broadcast_tx := s.broadcast_tx ++ [⟨message, exclude_client⟩] }

/-- `DocumentSession::send_to_client` from session.rs: the one operation that
does write to a client's `sender`. -/
def DocumentSession.send_to_client (s : DocumentSession) (client_id : String)
    (message : ServerMessage) : DocumentSession × Bool :=
  match s.clients.find? (fun kv => kv.1 = client_id) with
  | some _ =>
      ({ s with clients := s.clients.map (fun kv =>
          if kv.1 = client_id then (kv.1, { kv.2 with sender := kv.2.sender ++ [message] })
          else kv) }, true)
  | none => (s, false)

/-- C2 (code evaluated at the failing input, generalized): `broadcast` leaves
every registered client's outbound `sender` channel untouched — it only appends
the message to the session's internal broadcast channel, which no task in the
server ever subscribes to (`DocumentSession::subscribe` has no callers in
server.rs or handler.rs).  Hence no client receives the message, contradicting
the claim that every non-excluded client's channel receives it. -/
theorem c2_broadcast_reaches_no_client_sender (s : DocumentSession)
    (m : ServerMessage) (ex : Option String) :
    (s.broadcast m ex).clients = s.clients ∧
    (s.broadcast m ex).broadcast_tx = s.broadcast_tx ++ [⟨m, ex⟩] :=
  ⟨rfl, rfl⟩

/-! ## Change handler (sync-server/src/handler.rs)

`handle_change` is embedded with its external collaborators abstracted: base64
decoding (`base64` crate) as `decode`, the Automerge replica (`automerge`
crate) as an abstract document type with `apply_change` and `heads_len`
(`get_heads().len()`), and presence of a session as `session_exists`.  Its
observable effects are the messages pushed to the sender's own channel, the
broadcasts published, and the updated document. -/

/-- Observable effects of a handler invocation. -/
structure HandlerEffects (α : Type) where
  sender_msgs : List ServerMessage
  broadcasts : List BroadcastMessage
  doc : α
deriving Repr

/-- `handle_change` from handler.rs: decode the base64 payload (on failure log
and return), apply the change to the replica (on failure log and return), then
publish a `ChangeBroadcast` with the original encoded string, excluding the
sender, if the session exists. -/
def handle_change {α : Type} (decode : String → Option (List Nat))
    (apply_change : α → List Nat → Option α) (heads_len : α → Nat)
    (session_exists : Bool) (doc : α)
    (document_id client_id change : String) : HandlerEffects α :=
  match decode change with
  | none => ⟨[], [], doc⟩
  | some change_bytes =>
    match apply_change doc change_bytes with
    | none => ⟨[], [], doc⟩
    | some doc' =>
      if session_exists then
        ⟨[], [⟨ServerMessage.ChangeBroadcast document_id client_id change (heads_len doc'),
               some client_id⟩], doc'⟩
      else ⟨[], [], doc'⟩

/-- C9: when base64 decoding fails or the replica rejects the change,
`handle_change` sends nothing at all (no frame back to the sender, no
broadcast, document unchanged); only on successful application does it publish
a single `ChangeBroadcast` carrying the original encoded bytes, excluding the
sender. -/
theorem c9_change_failure_sends_nothing {α : Type}
    (decode : String → Option (List Nat)) (apply_change : α → List Nat → Option α)
    (heads_len : α → Nat) (session_exists : Bool) (doc : α)
    (document_id client_id change : String) :
    (decode change = none →
      handle_change decode apply_change heads_len session_exists doc
        document_id client_id change = ⟨[], [], doc⟩) ∧
    (∀ bytes, decode change = some bytes → apply_change doc bytes = none →
      handle_change decode apply_change heads_len session_exists doc
        document_id client_id change = ⟨[], [], doc⟩) ∧
    (∀ bytes doc', decode change = some bytes → apply_change doc bytes = some doc' →
      handle_change decode apply_change heads_len true doc
        document_id client_id change =
        ⟨[], [⟨ServerMessage.ChangeBroadcast document_id client_id change (heads_len doc'),
               some client_id⟩], doc'⟩) := by
  refine ⟨?_, ?_, ?_⟩
  · intro h
    simp [handle_change, h]
  · intro bytes h1 h2
    simp [handle_change, h1, h2]
  · intro bytes doc' h1 h2
    simp [handle_change, h1, h2]

/-- C9 witness: concrete decode/apply functions exercising all three branches. -/
theorem c9_change_failure_sends_nothing_witness :
    (handle_change (fun s => if s = "good" then some [0] else none)
        (fun (d : Nat) b => if b = [0] then some (d + 1) else none) id true 7
        "doc1" "clientA" "bad!" = ⟨[], [], 7⟩) ∧
    (handle_change (fun s => if s = "good" ∨ s = "rejected" then some [1] else none)
        (fun (d : Nat) b => if b = [0] then some (d + 1) else none) id true 7
        "doc1" "clientA" "rejected" = ⟨[], [], 7⟩) ∧
    (handle_change (fun s => if s = "good" then some [0] else none)
        (fun (d : Nat) b => if b = [0] then some (d + 1) else none) id true 7
        "doc1" "clientA" "good" =
      ⟨[], [⟨ServerMessage.ChangeBroadcast "doc1" "clientA" "good" 8, some "clientA"⟩], 8⟩) :=
  ⟨(c9_change_failure_sends_nothing (fun s => if s = "good" then some [0] else none)
      (fun (d : Nat) b => if b = [0] then some (d + 1) else none) id true 7
      "doc1" "clientA" "bad!").1 (by decide),
   (c9_change_failure_sends_nothing (fun s => if s = "good" ∨ s = "rejected" then some [1] else none)
      (fun (d : Nat) b => if b = [0] then some (d + 1) else none) id true 7
      "doc1" "clientA" "rejected").2.1 [1] (by decide) (by decide),
   (c9_change_failure_sends_nothing (fun s => if s = "good" then some [0] else none)
      (fun (d : Nat) b => if b = [0] then some (d + 1) else none) id true 7
      "doc1" "clientA" "good").2.2 [0] 8 (by decide) (by decide)⟩

/-! ## Tools (canvas-core/src/tools.rs, canvas-core/src/input.rs) -/

/-- `Modifiers` from input.rs. -/
structure Modifiers where
  shift : Bool
  ctrl : Bool
  alt : Bool
  meta : Bool
deriving DecidableEq, Repr

/-- `InputEvent` from input.rs (`f64`/`f32` over `ℚ`, `u8`/`i32` as `Nat`/`Int`). -/
inductive InputEvent where
  | PointerDown (canvas_x canvas_y screen_x screen_y : ℚ) (button buttons : Nat)
      (modifiers : Modifiers) (pressure : ℚ) (pointer_id : Int)
  | PointerMove (canvas_x canvas_y screen_x screen_y : ℚ) (button buttons : Nat)
      (modifiers : Modifiers) (pressure : ℚ) (pointer_id : Int)
  | PointerUp (canvas_x canvas_y screen_x screen_y : ℚ) (button buttons : Nat)
      (modifiers : Modifiers) (pressure : ℚ) (pointer_id : Int)
  | Wheel (canvas_x canvas_y screen_x screen_y delta_x delta_y delta_z : ℚ)
      (modifiers : Modifiers)
  | KeyDown (key code : String) (modifiers : Modifiers)
  | KeyUp (key code : String) (modifiers : Modifiers)
deriving DecidableEq, Repr

/-- `ToolType` from tools.rs. -/
inductive ToolType where
  | Select
  | Pan
  | Rectangle
  | Ellipse
  | Line
  | Pen
  | Text
deriving DecidableEq, Repr

/-- The draw tools: everything except `Select` and `Pan` (the `_` arm of
`ToolManager::handle_event`). -/
def ToolType.isDrawTool : ToolType → Bool
  | .Select => false
  | .Pan => false
  | _ => true

/-- `ToolState` from tools.rs. -/
structure ToolState where
  is_dragging : Bool
  drag_start : Option Point
  drag_current : Option Point
  active_object : Option String
deriving DecidableEq, Repr

/-- `ToolState::default()`. -/
def ToolState.default : ToolState := ⟨false, none, none, none⟩

/-- `ToolManager::handle_draw_event` from tools.rs, the branch
`ToolManager::handle_event` dispatches to for every draw tool.  Like the Rust
method, it receives only the tool state and the event — it has no access to the
document, scene or entity store — and returns the updated state plus the
consumed flag. -/
def ToolManager.handle_draw_event (state : ToolState) (event : InputEvent) :
    ToolState × Bool :=
  match event with
  | .PointerDown cx cy _ _ button _ _ _ _ =>
      if button = 0 then
        ({ state with is_dragging := true, drag_start := some ⟨cx, cy⟩ }, true)
      else (state, false)
  | .PointerMove cx cy _ _ _ _ _ _ _ =>
      if state.is_dragging then
        ({ state with drag_current := some ⟨cx, cy⟩ }, true)
      else (state, false)
  | .PointerUp _ _ _ _ _ _ _ _ _ =>
      ({ state with is_dragging := false, drag_start := none, drag_current := none,
                    active_object := none }, true)
  | _ => (state, false)

/-- C7 (code evaluated at the failing input): a `PointerUp` during a drag on any
draw tool merely clears the drag state and consumes the event — the resulting
state is exactly `ToolState.default` and, since `handle_draw_event` (like its
Rust source) has no access to the document or scene, no canvas object is
created or inserted anywhere, contradicting the spec's "finalize creation of
the corresponding object and insert into document/scene". -/
theorem c7_pointer_up_only_clears_state (tool : ToolType) (state : ToolState)
    (cx cy sx sy : ℚ) (button buttons : Nat) (m : Modifiers) (pr : ℚ) (pid : Int) :
    tool.isDrawTool = true →
    ToolManager.handle_draw_event state
      (.PointerUp cx cy sx sy button buttons m pr pid) = (ToolState.default, true) := by
  intro _
  cases state
  simp [ToolManager.handle_draw_event, ToolState.default]

/-- C7 witness: the Rectangle tool mid-drag, pointer released at (10, 10). -/
theorem c7_pointer_up_only_clears_state_witness :
    ToolManager.handle_draw_event ⟨true, some ⟨0, 0⟩, some ⟨10, 10⟩, none⟩
      (.PointerUp 10 10 10 10 0 0 ⟨false, false, false, false⟩ 1 1)
      = (ToolState.default, true) :=
  c7_pointer_up_only_clears_state .Rectangle ⟨true, some ⟨0, 0⟩, some ⟨10, 10⟩, none⟩
    10 10 10 10 0 0 ⟨false, false, false, false⟩ 1 1 (by decide)

/-! ## Canvas objects and document (canvas-schema/src/objects.rs, document.rs)

`HashMap`s are modelled as association lists: `insertA` replaces the value at
an existing key or appends, `removeA` deletes the key, matching `HashMap`
insert/remove on maps with unique keys. -/

/-- Association-list lookup (`HashMap::get`). -/
def lookupA {κ β : Type} [DecidableEq κ] (l : List (κ × β)) (k : κ) : Option β :=
  (l.find? (fun kv => kv.1 = k)).map (·.2)

/-- Association-list insert (`HashMap::insert`). -/
def insertA {κ β : Type} [DecidableEq κ] (l : List (κ × β)) (k : κ) (v : β) :
    List (κ × β) :=
  if (l.find? (fun kv => kv.1 = k)).isSome then
    l.map (fun kv => if kv.1 = k then (k, v) else kv)
  else l ++ [(k, v)]

/-- Association-list removal (`HashMap::remove`). -/
def removeA {κ β : Type} [DecidableEq κ] (l : List (κ × β)) (k : κ) : List (κ × β) :=
  l.filter (fun kv => kv.1 ≠ k)

/-- Keys of an association list. -/
def keysA {κ β : Type} (l : List (κ × β)) : List κ := l.map (·.1)

theorem lookupA_cons_eq {κ β : Type} [DecidableEq κ] (kv : κ × β) (t : List (κ × β))
    (k : κ) (h : kv.1 = k) : lookupA (kv :: t) k = some kv.2 := by
  simp [lookupA, List.find?_cons, h]

theorem lookupA_cons_ne {κ β : Type} [DecidableEq κ] (kv : κ × β) (t : List (κ × β))
    (k : κ) (h : kv.1 ≠ k) : lookupA (kv :: t) k = lookupA t k := by
  simp [lookupA, List.find?_cons, h]

theorem removeA_cons_eq {κ β : Type} [DecidableEq κ] (kv : κ × β) (t : List (κ × β))
    (k : κ) (h : kv.1 = k) : removeA (kv :: t) k = removeA t k := by
  simp [removeA, List.filter, h]

theorem removeA_cons_ne {κ β : Type} [DecidableEq κ] (kv : κ × β) (t : List (κ × β))
    (k : κ) (h : kv.1 ≠ k) : removeA (kv :: t) k = kv :: removeA t k := by
  simp [removeA, List.filter, h]

theorem insertA_cons_ne {κ β : Type} [DecidableEq κ] (kv : κ × β) (t : List (κ × β))
    (k : κ) (v : β) (h : kv.1 ≠ k) :
    insertA (kv :: t) k v = kv :: insertA t k v := by
  by_cases hf : (t.find? (fun kv => kv.1 = k)).isSome
  · simp [insertA, List.find?_cons, h, hf]
  · simp [insertA, List.find?_cons, h, hf]

theorem insertA_cons_eq {κ β : Type} [DecidableEq κ] (kv : κ × β) (t : List (κ × β))
    (k : κ) (v : β) (h : kv.1 = k) :
    insertA (kv :: t) k v
      = (k, v) :: t.map (fun kv => if kv.1 = k then (k, v) else kv) := by
  simp [insertA, List.find?_cons, h]

theorem lookupA_map_replace_ne {κ β : Type} [DecidableEq κ] (t : List (κ × β)) (k k' : κ)
    (v : β) (h : k' ≠ k) :
    lookupA (t.map (fun kv => if kv.1 = k then (k, v) else kv)) k' = lookupA t k' := by
  induction t with
  | nil => rfl
  | cons kv t ih =>
    simp only [List.map_cons]
    by_cases hk : kv.1 = k
    · have h1 : k ≠ k' := Ne.symm h
      have h2 : kv.1 ≠ k' := by rw [hk]; exact h1
      rw [if_pos hk, lookupA_cons_ne ⟨k, v⟩ _ k' h1, lookupA_cons_ne kv t k' h2]
      exact ih
    · rw [if_neg hk]
      by_cases hk' : kv.1 = k'
      · rw [lookupA_cons_eq _ _ k' hk', lookupA_cons_eq kv t k' hk']
      · rw [lookupA_cons_ne _ _ k' hk', lookupA_cons_ne kv t k' hk']
        exact ih

theorem lookupA_insertA_self {κ β : Type} [DecidableEq κ] (l : List (κ × β)) (k : κ) (v : β) :
    lookupA (insertA l k v) k = some v := by
  induction l with
  | nil => simp [insertA, lookupA]
  | cons kv t ih =>
    by_cases h : kv.1 = k
    · rw [insertA_cons_eq kv t k v h, lookupA_cons_eq _ _ k rfl]
    · rw [insertA_cons_ne kv t k v h, lookupA_cons_ne _ _ k h]
      exact ih

theorem lookupA_insertA_ne {κ β : Type} [DecidableEq κ] (l : List (κ × β)) (k k' : κ) (v : β)
    (h : k' ≠ k) : lookupA (insertA l k v) k' = lookupA l k' := by
  induction l with
  | nil => simp [insertA, lookupA, List.find?_cons, Ne.symm h]
  | cons kv t ih =>
    by_cases hk : kv.1 = k
    · rw [insertA_cons_eq kv t k v hk]
      have h1 : k ≠ k' := Ne.symm h
      have h2 : kv.1 ≠ k' := by rw [hk]; exact h1
      rw [lookupA_cons_ne ⟨k, v⟩ _ k' h1, lookupA_cons_ne kv t k' h2]
      exact lookupA_map_replace_ne t k k' v h
    · rw [insertA_cons_ne kv t k v hk]
      by_cases hk' : kv.1 = k'
      · rw [lookupA_cons_eq _ _ k' hk', lookupA_cons_eq kv t k' hk']
      · rw [lookupA_cons_ne _ _ k' hk', lookupA_cons_ne kv t k' hk']
        exact ih

theorem lookupA_removeA_self {κ β : Type} [DecidableEq κ] (l : List (κ × β)) (k : κ) :
    lookupA (removeA l k) k = none := by
  induction l with
  | nil => rfl
  | cons kv t ih =>
    by_cases h : kv.1 = k
    · rw [removeA_cons_eq kv t k h]
      exact ih
    · rw [removeA_cons_ne kv t k h, lookupA_cons_ne kv _ k h]
      exact ih

theorem lookupA_removeA_ne {κ β : Type} [DecidableEq κ] (l : List (κ × β)) (k k' : κ)
    (h : k' ≠ k) : lookupA (removeA l k) k' = lookupA l k' := by
  induction l with
  | nil => rfl
  | cons kv t ih =>
    by_cases hk : kv.1 = k
    · have hk2 : kv.1 ≠ k' := by rw [hk]; exact Ne.symm h
      rw [removeA_cons_eq kv t k hk, lookupA_cons_ne kv t k' hk2]
      exact ih
    · rw [removeA_cons_ne kv t k hk]
      by_cases hk' : kv.1 = k'
      · rw [lookupA_cons_eq _ _ k' hk', lookupA_cons_eq kv t k' hk']
      · rw [lookupA_cons_ne _ _ k' hk', lookupA_cons_ne kv t k' hk']
        exact ih

/-- `Color` from types.rs (`f32` over `ℚ`). -/
structure Color where
  r : ℚ
  g : ℚ
  b : ℚ
  a : ℚ
deriving DecidableEq, Repr

/-- `Color::WHITE`. -/
def Color.WHITE : Color := ⟨1, 1, 1, 1⟩

/-- `Color::BLACK`. -/
def Color.BLACK : Color := ⟨0, 0, 0, 1⟩

/-- `StrokeCap` from objects.rs. -/
inductive StrokeCap where
  | Butt
  | Round
  | Square
deriving DecidableEq, Repr

/-- `StrokeJoin` from objects.rs. -/
inductive StrokeJoin where
  | Miter
  | Round
  | Bevel
deriving DecidableEq, Repr

/-- `StrokeStyle` from objects.rs. -/
structure StrokeStyle where
  color : Color
  width : ℚ
  cap : StrokeCap
  join : StrokeJoin
  dash_array : Option (List ℚ)
  dash_offset : ℚ
deriving DecidableEq, Repr

/-- `GradientStop` from objects.rs. -/
structure GradientStop where
  offset : ℚ
  color : Color
deriving DecidableEq, Repr

/-- `FillStyle` from objects.rs. -/
inductive FillStyle where
  | Solid (color : Color)
  | LinearGradient (start : Point) (ends : Point) (stops : List GradientStop)
  | RadialGradient (center : Point) (radius : ℚ) (stops : List GradientStop)
deriving DecidableEq, Repr

/-- `BaseObjectProperties` from objects.rs (z-index as `List Char`, cf. C1). -/
structure BaseObjectProperties where
  id : String
  page_id : String
  parent_id : Option String
  transform : Transform
  z_index : List Char
  visible : Bool
  locked : Bool
  name : Option String
deriving DecidableEq, Repr

/-- `RectangleObject` from objects.rs (`[f64; 4]` corner radii as a 4-tuple). -/
structure RectangleObject where
  base : BaseObjectProperties
  width : ℚ
  height : ℚ
  corner_radius : ℚ × ℚ × ℚ × ℚ
  fill : Option FillStyle
  stroke : Option StrokeStyle
deriving DecidableEq, Repr

/-- `EllipseObject` from objects.rs. -/
structure EllipseObject where
  base : BaseObjectProperties
  radius_x : ℚ
  radius_y : ℚ
  fill : Option FillStyle
  stroke : Option StrokeStyle
deriving DecidableEq, Repr

/-- `LineObject` from objects.rs. -/
structure LineObject where
  base : BaseObjectProperties
  start : Point
  ends : Point
  stroke : StrokeStyle
deriving DecidableEq, Repr

/-- `PolylineObject` from objects.rs. -/
structure PolylineObject where
  base : BaseObjectProperties
  points : List Point
  closed : Bool
  fill : Option FillStyle
  stroke : Option StrokeStyle
deriving DecidableEq, Repr

/-- `PathObject` from objects.rs. -/
structure PathObject where
  base : BaseObjectProperties
  path_data : String
  fill : Option FillStyle
  stroke : Option StrokeStyle
deriving DecidableEq, Repr

/-- `TextAlign` from objects.rs. -/
inductive TextAlign where
  | Left
  | Center
  | Right
  | Justify
deriving DecidableEq, Repr

/-- `TextVerticalAlign` from objects.rs. -/
inductive TextVerticalAlign where
  | Top
  | Middle
  | Bottom
deriving DecidableEq, Repr

/-- `FontStyle` from objects.rs. -/
inductive FontStyle where
  | Normal
  | Italic
deriving DecidableEq, Repr

/-- `TextObject` from objects.rs. -/
structure TextObject where
  base : BaseObjectProperties
  content : String
  width : ℚ
  height : ℚ
  font_family : String
  font_size : ℚ
  font_weight : Nat
  font_style : FontStyle
  line_height : ℚ
  letter_spacing : ℚ
  text_align : TextAlign
  vertical_align : TextVerticalAlign
  fill : Color
deriving DecidableEq, Repr

/-- `ImageCrop` from objects.rs. -/
structure ImageCrop where
  x : ℚ
  y : ℚ
  width : ℚ
  height : ℚ
deriving DecidableEq, Repr

/-- `ImageObject` from objects.rs. -/
structure ImageObject where
  base : BaseObjectProperties
  width : ℚ
  height : ℚ
  src : String
  original_width : ℚ
  original_height : ℚ
  crop : Option ImageCrop
deriving DecidableEq, Repr

/-- `GroupObject` from objects.rs. -/
structure GroupObject where
  base : BaseObjectProperties
  children : List String
  clip_content : Bool
deriving DecidableEq, Repr

/-- `CanvasObject` from objects.rs. -/
inductive CanvasObject where
  | rectangle (o : RectangleObject)
  | ellipse (o : EllipseObject)
  | line (o : LineObject)
  | polyline (o : PolylineObject)
  | path (o : PathObject)
  | text (o : TextObject)
  | image (o : ImageObject)
  | group (o : GroupObject)
deriving DecidableEq, Repr

/-- `CanvasObject::base` from objects.rs. -/
def CanvasObject.base : CanvasObject → BaseObjectProperties
  | .rectangle o => o.base
  | .ellipse o => o.base
  | .line o => o.base
  | .polyline o => o.base
  | .path o => o.base
  | .text o => o.base
  | .image o => o.base
  | .group o => o.base

/-- The child-ID list of a group, empty for every other variant. -/
def CanvasObject.groupChildren : CanvasObject → List String
  | .group o => o.children
  | _ => []

/-- `Page` from objects.rs. -/
structure Page where
  id : String
  name : String
  background_color : Color
  width : ℚ
  height : ℚ
deriving DecidableEq, Repr

/-- `DocumentMetadata` from document.rs. -/
structure DocumentMetadata where
  id : String
  title : String
  created_at : String
  updated_at : String
  created_by : String
  version : Nat
deriving DecidableEq, Repr

/-- `CanvasDocument` from document.rs. -/
structure CanvasDocument where
  metadata : DocumentMetadata
  pages : List String
  page_data : List (String × Page)
  objects : List (String × CanvasObject)
  page_objects : List (String × List String)
deriving DecidableEq, Repr

/-- `CanvasDocument::add_object` from document.rs: insert into `objects`, push
the ID onto the page's order list only if that page already has an entry in
`page_objects`, bump the version. -/
def CanvasDocument.add_object (d : CanvasDocument) (object : CanvasObject) :
    CanvasDocument :=
  let id := object.base.id
  let page_id := object.base.page_id
  let objects := insertA d.objects id object
  let page_objects :=
    match lookupA d.page_objects page_id with
    | some lst => insertA d.page_objects page_id (lst ++ [id])
    | none => d.page_objects
  { d with objects := objects, page_objects := page_objects,
           metadata := { d.metadata with version := d.metadata.version + 1 } }

/-- `CanvasDocument::remove_object` from document.rs: remove from `objects`,
retain the object's own page's order list without the ID, bump the version.
Group child lists are not touched. -/
def CanvasDocument.remove_object (d : CanvasDocument) (id : String) :
    Option CanvasObject × CanvasDocument :=
  match lookupA d.objects id with
  | some object =>
    let objects := removeA d.objects id
    let page_id := object.base.page_id
    let page_objects :=
      match lookupA d.page_objects page_id with
      | some lst => insertA d.page_objects page_id (lst.filter (· ≠ id))
      | none => d.page_objects
    (some object,
     { d with objects := objects, page_objects := page_objects,
              metadata := { d.metadata with version := d.metadata.version + 1 } })
  | none => (none, d)

/-- The spec's document membership invariants (§3): every ID in a page order
list or a group child list is present in `objects`, and every object's page has
an entry in `pages` and lists the object's ID. -/
def membership_invariants (d : CanvasDocument) : Prop :=
  (∀ kv ∈ d.page_objects, ∀ id ∈ kv.2, id ∈ keysA d.objects) ∧
  (∀ kv ∈ d.objects, ∀ cid ∈ (kv.2 : CanvasObject).groupChildren, cid ∈ keysA d.objects) ∧
  (∀ kv ∈ d.objects, (kv.2 : CanvasObject).base.page_id ∈ d.pages ∧
    ∃ lst, lookupA d.page_objects (kv.2 : CanvasObject).base.page_id = some lst ∧ kv.1 ∈ lst)

instance (d : CanvasDocument) : Decidable (membership_invariants d) := by
  unfold membership_invariants
  infer_instance

/-- Default-ish base properties for concrete documents. -/
def basePropsFor (id pid : String) : BaseObjectProperties :=
  ⟨id, pid, none, Transform.IDENTITY, ['Z', 'z'], true, false, none⟩

/-- A concrete rectangle object. -/
def sampleRect (id pid : String) : CanvasObject :=
  .rectangle ⟨basePropsFor id pid, 100, 50, (0, 0, 0, 0), none, none⟩

/-- A concrete group object. -/
def sampleGroup (id pid : String) (children : List String) : CanvasObject :=
  .group ⟨basePropsFor id pid, children, false⟩

/-- A concrete page. -/
def samplePage (id : String) : Page := ⟨id, "Page 1", Color.WHITE, 1920, 1080⟩

/-- Concrete metadata. -/
def sampleMeta : DocumentMetadata := ⟨"doc1", "t", "0", "0", "u", 1⟩

/-- A document with a single empty page `p1` (invariants hold trivially). -/
def c8doc_missing_page : CanvasDocument :=
  ⟨sampleMeta, ["p1"], [("p1", samplePage "p1")], [], [("p1", [])]⟩

/-- A document whose group `g1` lists `r1` as a child. -/
def c8doc_group : CanvasDocument :=
  ⟨sampleMeta, ["p1"], [("p1", samplePage "p1")],
   [("r1", sampleRect "r1" "p1"), ("g1", sampleGroup "g1" "p1" ["r1"])],
   [("p1", ["r1", "g1"])]⟩

/-- A document satisfying the membership invariants in which `x1` is listed in
two pages' order lists. -/
def c8doc_two_pages : CanvasDocument :=
  ⟨sampleMeta, ["p1", "p2"], [("p1", samplePage "p1"), ("p2", samplePage "p2")],
   [("x1", sampleRect "x1" "p1")],
   [("p1", ["x1"]), ("p2", ["x1"])]⟩

/-- C8 counterexample: on documents satisfying the membership invariants,
(1) adding an object whose `page_id` has no `page_objects` entry leaves its ID
in no page order list (and breaks the invariant); (2) removing an object that a
group lists as a child leaves the ID in the group's child list; (3) removing an
object listed in a second page's order list leaves the ID there. -/
theorem c8_membership_counterexample :
    (membership_invariants c8doc_missing_page ∧
      lookupA (c8doc_missing_page.add_object (sampleRect "r1" "p2")).page_objects "p2"
        = none ∧
      lookupA (c8doc_missing_page.add_object (sampleRect "r1" "p2")).objects "r1"
        = some (sampleRect "r1" "p2")) ∧
    (membership_invariants c8doc_group ∧
      lookupA (c8doc_group.remove_object "r1").2.objects "g1"
        = some (sampleGroup "g1" "p1" ["r1"]) ∧
      lookupA (c8doc_group.remove_object "r1").2.objects "r1" = none) ∧
    (membership_invariants c8doc_two_pages ∧
      lookupA (c8doc_two_pages.remove_object "x1").2.page_objects "p2" = some ["x1"] ∧
      lookupA (c8doc_two_pages.remove_object "x1").2.objects "x1" = none) := by
  decide

/-- C8 (amended): `add_object(o)` registers `o` under its ID and, provided
`o.page_id` already has an entry in `page_objects`, appends the ID to that
page's order list.  `remove_object(id)` deletes the ID from `objects` and from
the removed object's own page's order list, and leaves every other object —
group child lists included — unchanged. -/
theorem c8_add_remove_membership (d : CanvasDocument) :
    (∀ o : CanvasObject, ∀ lst, lookupA d.page_objects o.base.page_id = some lst →
      lookupA (d.add_object o).objects o.base.id = some o ∧
      lookupA (d.add_object o).page_objects o.base.page_id = some (lst ++ [o.base.id])) ∧
    (∀ id o, lookupA d.objects id = some o →
      lookupA (d.remove_object id).2.objects id = none ∧
      (∀ lst', lookupA (d.remove_object id).2.page_objects o.base.page_id = some lst' →
        id ∉ lst') ∧
      (∀ k, k ≠ id → lookupA (d.remove_object id).2.objects k = lookupA d.objects k)) := by
  constructor
  · intro o lst h
    constructor
    · simp only [CanvasDocument.add_object, h]
      exact lookupA_insertA_self d.objects o.base.id o
    · simp only [CanvasDocument.add_object, h]
      exact lookupA_insertA_self d.page_objects o.base.page_id (lst ++ [o.base.id])
  · intro id o h
    refine ⟨?_, ?_, ?_⟩
    · simp only [CanvasDocument.remove_object, h]
      exact lookupA_removeA_self d.objects id
    · intro lst' hl
      simp only [CanvasDocument.remove_object, h] at hl
      cases hp : lookupA d.page_objects o.base.page_id with
      | none =>
        rw [hp] at hl
        simp only at hl
        rw [hl] at hp
        simp at hp
      | some lst =>
        rw [hp] at hl
        simp only at hl
        rw [lookupA_insertA_self] at hl
        cases hl
        intro hmem
        have := List.of_mem_filter hmem
        simp at this
    · intro k hk
      simp only [CanvasDocument.remove_object, h]
      exact lookupA_removeA_ne d.objects id k hk

/-- C8 witness: the amended behaviour on the concrete group document. -/
theorem c8_add_remove_membership_witness :
    lookupA (c8doc_group.add_object (sampleRect "r2" "p1")).objects "r2"
        = some (sampleRect "r2" "p1") ∧
    lookupA (c8doc_group.add_object (sampleRect "r2" "p1")).page_objects "p1"
        = some ["r1", "g1", "r2"] ∧
    lookupA (c8doc_group.remove_object "r1").2.objects "r1" = none ∧
    lookupA (c8doc_group.remove_object "r1").2.objects "g1"
        = lookupA c8doc_group.objects "g1" :=
  ⟨((c8_add_remove_membership c8doc_group).1 (sampleRect "r2" "p1") ["r1", "g1"]
      (by decide)).1,
   ((c8_add_remove_membership c8doc_group).1 (sampleRect "r2" "p1") ["r1", "g1"]
      (by decide)).2,
   ((c8_add_remove_membership c8doc_group).2 "r1" (sampleRect "r1" "p1") (by decide)).1,
   ((c8_add_remove_membership c8doc_group).2 "r1" (sampleRect "r1" "p1")
      (by decide)).2.2 "g1" (by decide)⟩

/-! ## ECS world (canvas-core/src/ecs/components.rs)

A bevy `World` is modelled as an association list from entity IDs to records of
optional components; an absent component is `none` (for data components) or
`false` (for the `DirtyTransform` and `Renderable` marker components). -/

/-- bevy `Entity`. -/
abbrev Entity := Nat

/-- `TransformComponent` from components.rs.  The source field `local` is
renamed `loc` because `local` is a Lean keyword. -/
structure TransformComponent where
  loc : Transform
  world : Transform
deriving DecidableEq, Repr

/-- `VisibilityComponent` from components.rs. -/
structure VisibilityComponent where
  visible : Bool
  locked : Bool
deriving DecidableEq, Repr

/-- `LocalBounds` from components.rs. -/
structure LocalBounds where
  x : ℚ
  y : ℚ
  width : ℚ
  height : ℚ
deriving DecidableEq, Repr

/-- `WorldBounds` from components.rs. -/
structure WorldBounds where
  x : ℚ
  y : ℚ
  width : ℚ
  height : ℚ
deriving DecidableEq, Repr

/-- The components of one entity that the embedded systems touch. -/
structure EntityRec where
  transform : Option TransformComponent
  z_index : Option (List Char)
  visibility : Option VisibilityComponent
  parent : Option Entity
  children : Option (List Entity)
  dirty : Bool
  local_bounds : Option LocalBounds
  world_bounds : Option WorldBounds
  renderable : Bool
deriving DecidableEq, Repr

/-- A bevy `World`: entity table. -/
abbrev World := List (Entity × EntityRec)

/-! ## Hit testing (canvas-core/src/ecs/systems.rs) -/

/-- The filter of `hit_test` in systems.rs: the entity is in the
`(WorldBounds, ZIndexComponent, VisibilityComponent) With<Renderable>` query,
is visible, not locked, and its world bounds contain the point. -/
def hit_candidate (r : EntityRec) (x y : ℚ) : Bool :=
  match r.world_bounds, r.z_index, r.visibility with
  | some wb, some _, some vis =>
      r.renderable && vis.visible && !vis.locked &&
      decide (x ≥ wb.x) && decide (x ≤ wb.x + wb.width) &&
      decide (y ≥ wb.y) && decide (y ≤ wb.y + wb.height)
  | _, _, _ => false

/-- The `hits` vector of `hit_test`: candidates paired with their z-index. -/
def hitCandidates (w : World) (x y : ℚ) : List (Entity × List Char) :=
  (w.filter (fun kv => hit_candidate kv.2 x y)).filterMap
    (fun kv => kv.2.z_index.map (fun z => (kv.1, z)))

/-- `hit_test` from systems.rs: filter, sort by z-index descending
(`sort_by(|a, b| b.1.cmp(&a.1))`), return the first. -/
def hit_test (w : World) (x y : ℚ) : Option Entity :=
  (((hitCandidates w x y).mergeSort (fun a b => !(decide (zlt a.2 b.2)))).head?).map (·.1)

theorem zlt_irrefl (z : List Char) : ¬ zlt z z := by
  intro h
  exact (List.Lex.isAsymm (α := Char) (· < ·)).asymm z z h h

theorem zlt_trans {a b c : List Char} (hab : zlt a b) (hbc : zlt b c) : zlt a c :=
  IsTrans.trans (r := List.Lex (· < ·)) a b c hab hbc

theorem not_zlt_trans {a b c : List Char} (hab : ¬ zlt a b) (hbc : ¬ zlt b c) :
    ¬ zlt a c := by
  intro hac
  rcases (List.Lex.isTrichotomous (α := Char) (· < ·)).trichotomous a b with h | h | h
  · exact hab h
  · exact hbc (h ▸ hac)
  · rcases (List.Lex.isTrichotomous (α := Char) (· < ·)).trichotomous b c with h' | h' | h'
    · exact hbc h'
    · subst h'
      exact hab hac
    · exact hab (zlt_trans hac h')

theorem not_zlt_total (a b : List Char) : ¬ zlt a b ∨ ¬ zlt b a := by
  by_cases h : zlt a b
  · exact Or.inr fun h' => (List.Lex.isAsymm (α := Char) (· < ·)).asymm a b h h'
  · exact Or.inl h

theorem hit_candidate_true_iff (r : EntityRec) (x y : ℚ) :
    hit_candidate r x y = true ↔
    ∃ wb zi vis, r.world_bounds = some wb ∧ r.z_index = some zi ∧
      r.visibility = some vis ∧ r.renderable = true ∧ vis.visible = true ∧
      vis.locked = false ∧
      x ≥ wb.x ∧ x ≤ wb.x + wb.width ∧ y ≥ wb.y ∧ y ≤ wb.y + wb.height := by
  unfold hit_candidate
  cases hwb : r.world_bounds with
  | none => simp
  | some wb =>
    cases hz : r.z_index with
    | none => simp
    | some zi =>
      cases hv : r.visibility with
      | none => simp
      | some vis =>
        simp only [Bool.and_eq_true, decide_eq_true_eq, Bool.not_eq_true']
        constructor
        · rintro ⟨⟨⟨⟨⟨⟨h1, h2⟩, h3⟩, h4⟩, h5⟩, h6⟩, h7⟩
          exact ⟨wb, zi, vis, rfl, rfl, rfl, h1, h2, h3, h4, h5, h6, h7⟩
        · rintro ⟨wb', zi', vis', hwb', hz', hv', h1, h2, h3, h4, h5, h6, h7⟩
          cases hwb'; cases hz'; cases hv'
          exact ⟨⟨⟨⟨⟨⟨h1, h2⟩, h3⟩, h4⟩, h5⟩, h6⟩, h7⟩

theorem mem_hitCandidates (w : World) (x y : ℚ) (e : Entity) (z : List Char) :
    (e, z) ∈ hitCandidates w x y ↔
    ∃ r, (e, r) ∈ w ∧ hit_candidate r x y = true ∧ r.z_index = some z := by
  unfold hitCandidates
  rw [List.mem_filterMap]
  constructor
  · rintro ⟨kv, hmem, hmap⟩
    rw [List.mem_filter] at hmem
    rcases Option.map_eq_some'.mp hmap with ⟨z0, hz0, heq⟩
    cases heq
    exact ⟨kv.2, hmem.1, by simpa using hmem.2, hz0⟩
  · rintro ⟨r, hmem, hcand, hz⟩
    refine ⟨(e, r), List.mem_filter.mpr ⟨hmem, by simpa using hcand⟩, ?_⟩
    simp [hz]

/-- C3: `hit_test` considers exactly the renderable entities that are visible,
not locked, and whose world bounds contain the point; when it returns an entity
that entity is a candidate with lexicographically maximal z-index among the
candidates; it returns `none` iff there is no candidate, and in particular when
no entity's world bounds contain the point. -/
theorem c3_hit_test_topmost (w : World) (x y : ℚ) :
    (∀ e z, (e, z) ∈ hitCandidates w x y ↔
      ∃ r, (e, r) ∈ w ∧ hit_candidate r x y = true ∧ r.z_index = some z) ∧
    (hit_test w x y = none ↔ hitCandidates w x y = []) ∧
    (∀ e, hit_test w x y = some e →
      ∃ z, (e, z) ∈ hitCandidates w x y ∧
        ∀ e' z', (e', z') ∈ hitCandidates w x y → ¬ zlt z z') ∧
    ((∀ e r, (e, r) ∈ w → ∀ wb, r.world_bounds = some wb →
        ¬(x ≥ wb.x ∧ x ≤ wb.x + wb.width ∧ y ≥ wb.y ∧ y ≤ wb.y + wb.height)) →
      hit_test w x y = none) := by
  have htrans : ∀ (a b c : Entity × List Char),
      (!(decide (zlt a.2 b.2))) = true → (!(decide (zlt b.2 c.2))) = true →
      (!(decide (zlt a.2 c.2))) = true := by
    intro a b c hab hbc
    simp only [Bool.not_eq_true', decide_eq_false_iff_not] at *
    exact not_zlt_trans hab hbc
  have htotal : ∀ (a b : Entity × List Char),
      ((!(decide (zlt a.2 b.2))) || (!(decide (zlt b.2 a.2)))) = true := by
    intro a b
    rcases not_zlt_total a.2 b.2 with h | h <;> simp [h]
  have hperm := List.mergeSort_perm (hitCandidates w x y)
    (fun a b => !(decide (zlt a.2 b.2)))
  have hsorted := List.sorted_mergeSort htrans htotal (hitCandidates w x y)
  have hnil : hitCandidates w x y = [] →
      (hitCandidates w x y).mergeSort (fun a b => !(decide (zlt a.2 b.2))) = [] := by
    intro h
    rw [h]
    exact List.mergeSort_nil
  refine ⟨mem_hitCandidates w x y, ?_, ?_, ?_⟩
  · constructor
    · intro h
      cases hS : (hitCandidates w x y).mergeSort (fun a b => !(decide (zlt a.2 b.2))) with
      | nil =>
        have h0 : ([] : List (Entity × List Char)).Perm (hitCandidates w x y) :=
          hS ▸ hperm
        exact (List.perm_nil.mp h0.symm)
      | cons hd tl => simp [hit_test, hS] at h
    · intro h
      simp [hit_test, hnil h]
  · intro e he
    cases hS : (hitCandidates w x y).mergeSort (fun a b => !(decide (zlt a.2 b.2))) with
    | nil => simp [hit_test, hS] at he
    | cons hd tl =>
      have he' : hd.1 = e := by simpa [hit_test, hS] using he
      rw [hS] at hperm hsorted
      cases hsorted with
      | cons hhd htl =>
        refine ⟨hd.2, ?_, ?_⟩
        · have h1 : hd ∈ hd :: tl := List.mem_cons_self hd tl
          have h2 := hperm.subset h1
          rw [← he']
          simpa using h2
        · intro e' z' hmem'
          have hmem2 : (e', z') ∈ hd :: tl := hperm.symm.subset hmem'
          rcases List.mem_cons.mp hmem2 with heq | hmem''
          · rw [← heq]
            exact zlt_irrefl z'
          · have := hhd _ hmem''
            simpa using this
  · intro hnone
    have hempty : hitCandidates w x y = [] := by
      by_contra hne
      rcases List.exists_mem_of_ne_nil _ hne with ⟨⟨e, z⟩, hmem⟩
      rcases (mem_hitCandidates w x y e z).mp hmem with ⟨r, hmemw, hcand, _⟩
      rcases (hit_candidate_true_iff r x y).mp hcand with
        ⟨wb, zi, vis, hwb, _, _, _, _, _, h1, h2, h3, h4⟩
      exact hnone e r hmemw wb hwb ⟨h1, h2, h3, h4⟩
    simp [hit_test, hnil hempty]

/-- Two overlapping entities: entity 1 with z-index `"a"`, entity 2 on top with
z-index `"b"` (spec scenario 4); entity 3 is off to the side. -/
def c3world : World :=
  [(1, ⟨none, some ['a'], some ⟨true, false⟩, none, none, false, none,
        some ⟨0, 0, 10, 10⟩, true⟩),
   (2, ⟨none, some ['b'], some ⟨true, false⟩, none, none, false, none,
        some ⟨0, 0, 10, 10⟩, true⟩),
   (3, ⟨none, some ['z'], some ⟨true, false⟩, none, none, false, none,
        some ⟨100, 100, 5, 5⟩, true⟩)]

theorem c3world_candidates : hitCandidates c3world 5 5 = [(1, ['a']), (2, ['b'])] := by
  norm_num [hitCandidates, hit_candidate, c3world]
  rfl

theorem c3world_hit : hit_test c3world 5 5 = some 2 := by
  rw [hit_test, c3world_candidates]
  simp [List.mergeSort, List.merge, zlt]

theorem c3world_far_point_missed : ∀ e r, (e, r) ∈ c3world →
    ∀ wb, r.world_bounds = some wb →
    ¬((-50 : ℚ) ≥ wb.x ∧ (-50 : ℚ) ≤ wb.x + wb.width ∧
      (-50 : ℚ) ≥ wb.y ∧ (-50 : ℚ) ≤ wb.y + wb.height) := by
  intro e r hmem wb hwb
  simp only [c3world, List.mem_cons, List.not_mem_nil, or_false] at hmem
  rcases hmem with h | h | h <;>
    (cases h; cases hwb; norm_num)

/-- C3 witness: on `c3world` at point (5, 5), candidate membership is as
characterized, the returned entity 2 has maximal z-index `"b"` among the
candidates, and a point outside every bound yields `none`. -/
theorem c3_hit_test_topmost_witness :
    ((2, ['b']) ∈ hitCandidates c3world 5 5 ↔
      ∃ r, ((2 : Entity), r) ∈ c3world ∧ hit_candidate r 5 5 = true ∧
        r.z_index = some ['b']) ∧
    (∃ z, ((2 : Entity), z) ∈ hitCandidates c3world 5 5 ∧
      ∀ e' z', (e', z') ∈ hitCandidates c3world 5 5 → ¬ zlt z z') ∧
    hit_test c3world (-50) (-50) = none :=
  ⟨(c3_hit_test_topmost c3world 5 5).1 2 ['b'],
   (c3_hit_test_topmost c3world 5 5).2.2.1 2 c3world_hit,
   (c3_hit_test_topmost c3world (-50) (-50)).2.2.2 c3world_far_point_missed⟩

/-! ## Scene graph (canvas-core/src/scene.rs)

`SceneGraph` stores nodes in a `HashMap` (association list here) plus a roots
vector.  `remove_node` recursively removes a node and its children; the Rust
recursion terminates because the map shrinks before each recursive call, so the
embedding uses fuel `nodes.length + 1`, which the proofs show is never
exhausted. -/

/-- `SceneNode` from scene.rs (z-index as `List Char`). -/
structure SceneNode where
  id : String
  parent : Option String
  children : List String
  local_transform : Transform
  world_transform : Transform
  local_bounds : BoundingBox
  world_bounds : BoundingBox
  z_index : List Char
  visible : Bool
  dirty : Bool
deriving DecidableEq, Repr

/-- `SceneGraph` from scene.rs. -/
structure SceneGraph where
  nodes : List (String × SceneNode)
  roots : List String
deriving DecidableEq, Repr

/-- `SceneNode` with one child edge to `id` removed (the
`parent.children.retain(|child| child != id)` step of `remove_node`). -/
def detachChild (n : SceneNode) (id : String) : SceneNode :=
  { n with children := n.children.filter (· ≠ id) }

/-- The non-recursive part of `SceneGraph::remove_node`: delete the entry and
detach it from its parent's child list (or from the roots when parentless). -/
def removeStep (G : SceneGraph) (id : String) (node : SceneNode) : SceneGraph :=
  match node.parent with
  | some parent_id =>
    match lookupA (removeA G.nodes id) parent_id with
    | some parent =>
      { nodes := insertA (removeA G.nodes id) parent_id (detachChild parent id),
        roots := G.roots }
    | none => { nodes := removeA G.nodes id, roots := G.roots }
  | none => { nodes := removeA G.nodes id, roots := G.roots.filter (· ≠ id) }

/-- Fuel-indexed `SceneGraph::remove_node` from scene.rs: remove the entry,
detach it, then recursively remove each of its children. -/
def remove_node_fuel : Nat → SceneGraph → String → Option SceneNode × SceneGraph
  | 0, g, _ => (none, g)
  | fuel + 1, g, id =>
    match lookupA g.nodes id with
    | none => (none, g)
    | some node =>
      (some node,
       node.children.foldl (fun acc child_id => (remove_node_fuel fuel acc child_id).2)
         (removeStep g id node))

/-- `SceneGraph::remove_node`: the fuel `nodes.length + 1` suffices because
every recursive call strictly shrinks the node map first. -/
def SceneGraph.remove_node (g : SceneGraph) (id : String) :
    Option SceneNode × SceneGraph :=
  remove_node_fuel (g.nodes.length + 1) g id

/-- Descendants in a scene graph: reachability along stored children lists. -/
inductive Desc (g : SceneGraph) : String → String → Prop where
  | child : ∀ {a b} (na : SceneNode),
      lookupA g.nodes a = some na → b ∈ na.children → Desc g a b
  | trans : ∀ {a b c} (na : SceneNode),
      lookupA g.nodes a = some na → b ∈ na.children → Desc g b c → Desc g a c

/-- `G` is a pruned version of `g`: nothing absent in `g` is present in `G`,
and every surviving node's child edges are original edges, missing only edges
to nodes already absent in `G`. -/
def Reduct (g G : SceneGraph) : Prop :=
  (∀ k, lookupA g.nodes k = none → lookupA G.nodes k = none) ∧
  (∀ k n', lookupA G.nodes k = some n' → ∃ n, lookupA g.nodes k = some n ∧
    ∀ c ∈ n.children, c ∈ n'.children ∨ lookupA G.nodes c = none)

/-- Closure up to an exception edge set: whenever a node that is a parent in
`g` has been removed from `G`, each of its `g`-children is removed too, unless
the edge is excepted. -/
def ClosedExc (g G : SceneGraph) (exc : List (String × String)) : Prop :=
  ∀ k nk c, lookupA g.nodes k = some nk → c ∈ nk.children →
    lookupA G.nodes k = none → (k, c) ∈ exc ∨ lookupA G.nodes c = none

theorem Reduct.refl (g : SceneGraph) : Reduct g g :=
  ⟨fun _ h => h, fun k n' h => ⟨n', h, fun c hc => Or.inl hc⟩⟩

theorem ClosedExc_nil_self (g : SceneGraph) : ClosedExc g g [] := by
  intro k nk c hk _ habs
  rw [hk] at habs
  cases habs

theorem ClosedExc_weaken {g G : SceneGraph} {exc' exc : List (String × String)}
    (h : ClosedExc g G exc')
    (hsub : ∀ e ∈ exc', e ∈ exc ∨ lookupA G.nodes e.2 = none) :
    ClosedExc g G exc := by
  intro k nk c hk hc habs
  rcases h k nk c hk hc habs with hmem | hnone
  · exact hsub _ hmem
  · exact Or.inr hnone

theorem foldl_invariant {α σ : Type} (P : σ → Prop) (f : σ → α → σ)
    (h : ∀ s a, P s → P (f s a)) :
    ∀ (l : List α) (s : σ), P s → P (l.foldl f s) := by
  intro l
  induction l with
  | nil => intro s hs; exact hs
  | cons a t ih => intro s hs; exact ih (f s a) (h s a hs)

theorem insertA_length_of_found {κ β : Type} [DecidableEq κ]
    (l : List (κ × β)) (k : κ) {v' : β} (h : lookupA l k = some v') (v : β) :
    (insertA l k v).length = l.length := by
  have hf : (l.find? (fun kv => kv.1 = k)).isSome := by
    unfold lookupA at h
    cases hfe : l.find? (fun kv => kv.1 = k) with
    | none => rw [hfe] at h; cases h
    | some x => simp
  simp [insertA, hf]

theorem removeStep_length (G : SceneGraph) (id : String) (node : SceneNode) :
    (removeStep G id node).nodes.length ≤ (removeA G.nodes id).length := by
  unfold removeStep
  split
  · split
    next parent hpl =>
      simp only
      rw [insertA_length_of_found (removeA G.nodes id) _ hpl]
    next hpl => exact le_refl _
  · exact le_refl _

theorem removeStep_length_lt (G : SceneGraph) (id : String) (node : SceneNode)
    (hid : lookupA G.nodes id = some node) :
    (removeStep G id node).nodes.length < G.nodes.length := by
  have hex : ∃ kv ∈ G.nodes, ¬ (fun kv : String × SceneNode => kv.1 ≠ id) kv = true := by
    unfold lookupA at hid
    cases hf : G.nodes.find? (fun kv => kv.1 = id) with
    | none => rw [hf] at hid; cases hid
    | some kv =>
      have hmem := List.mem_of_find?_eq_some hf
      have hkey : kv.1 = id := by
        have := List.find?_some hf
        simpa using this
      exact ⟨kv, hmem, by simp [hkey]⟩
  obtain ⟨kv, hmem, hkv⟩ := hex
  have hlt : (removeA G.nodes id).length < G.nodes.length := by
    unfold removeA
    exact List.length_filter_lt_length_iff_exists.mpr ⟨kv, hmem, by simpa using hkv⟩
  exact lt_of_le_of_lt (removeStep_length G id node) hlt

theorem removeStep_absent (G : SceneGraph) (id : String) (node : SceneNode)
    (k : String) (h : lookupA G.nodes k = none) :
    lookupA (removeStep G id node).nodes k = none := by
  have h1 : lookupA (removeA G.nodes id) k = none := by
    by_cases hk : k = id
    · subst hk; exact lookupA_removeA_self G.nodes k
    · rw [lookupA_removeA_ne G.nodes id k hk]; exact h
  unfold removeStep
  split
  next x parent_id heq =>
    split
    next y parent hpl =>
      show lookupA (insertA (removeA G.nodes id) parent_id (detachChild parent id)) k = none
      have hkp : k ≠ parent_id := fun he => by rw [he, hpl] at h1; cases h1
      rw [lookupA_insertA_ne _ parent_id k _ hkp]
      exact h1
    next y hpl => exact h1
  next x heq => exact h1

theorem removeStep_self (G : SceneGraph) (id : String) (node : SceneNode) :
    lookupA (removeStep G id node).nodes id = none := by
  have h1 : lookupA (removeA G.nodes id) id = none := lookupA_removeA_self G.nodes id
  unfold removeStep
  split
  next x parent_id heq =>
    split
    next y parent hpl =>
      show lookupA (insertA (removeA G.nodes id) parent_id (detachChild parent id)) id = none
      have hkp : id ≠ parent_id := by
        intro he
        rw [← he] at hpl
        rw [h1] at hpl
        cases hpl
      rw [lookupA_insertA_ne _ parent_id id _ hkp]
      exact h1
    next y hpl => exact h1
  next x heq => exact h1

theorem removeStep_absent_rev (G : SceneGraph) (id : String) (node : SceneNode)
    (k : String) (hk : k ≠ id)
    (h : lookupA (removeStep G id node).nodes k = none) :
    lookupA G.nodes k = none := by
  rw [← lookupA_removeA_ne G.nodes id k hk]
  revert h
  unfold removeStep
  split
  next x parent_id heq =>
    split
    next y parent hpl =>
      show lookupA (insertA (removeA G.nodes id) parent_id (detachChild parent id)) k = none →
        lookupA (removeA G.nodes id) k = none
      intro h
      by_cases hkp : k = parent_id
      · subst hkp
        rw [lookupA_insertA_self] at h
        cases h
      · rwa [lookupA_insertA_ne _ parent_id k _ hkp] at h
    next y hpl => exact fun h => h
  next x heq => exact fun h => h

theorem removeStep_lookup_struct (G : SceneGraph) (id : String) (node : SceneNode)
    (k : String) (n'' : SceneNode)
    (h : lookupA (removeStep G id node).nodes k = some n'') :
    ∃ n, lookupA G.nodes k = some n ∧
      ∀ c ∈ n.children, c ∈ n''.children ∨ c = id := by
  have hki : k ≠ id := by
    intro hke
    subst hke
    rw [removeStep_self G k node] at h
    cases h
  revert h
  unfold removeStep
  split
  next x parent_id heq =>
    split
    next y parent hpl =>
      show lookupA (insertA (removeA G.nodes id) parent_id (detachChild parent id)) k
          = some n'' → _
      intro h
      by_cases hkp : k = parent_id
      · subst hkp
        rw [lookupA_insertA_self] at h
        injection h with h
        subst h
        rw [lookupA_removeA_ne G.nodes id _ hki] at hpl
        refine ⟨parent, hpl, ?_⟩
        intro c hc
        by_cases hcid : c = id
        · exact Or.inr hcid
        · exact Or.inl (by simp [detachChild, List.mem_filter, hc, hcid])
      · rw [lookupA_insertA_ne (removeA G.nodes id) parent_id k (detachChild parent id) hkp,
          lookupA_removeA_ne G.nodes id k hki] at h
        exact ⟨n'', h, fun c hc => Or.inl hc⟩
    next y hpl =>
      show lookupA (removeA G.nodes id) k = some n'' → _
      rw [lookupA_removeA_ne G.nodes id k hki]
      intro h
      exact ⟨n'', h, fun c hc => Or.inl hc⟩
  next x heq =>
    show lookupA (removeA G.nodes id) k = some n'' → _
    rw [lookupA_removeA_ne G.nodes id k hki]
    intro h
    exact ⟨n'', h, fun c hc => Or.inl hc⟩

theorem removeStep_roots_not_mem (G : SceneGraph) (id : String) (node : SceneNode)
    (k : String) (h : k ∉ G.roots) : k ∉ (removeStep G id node).roots := by
  unfold removeStep
  split
  · split
    next parent hpl => exact h
    next hpl => exact h
  · intro hmem
    exact h (List.mem_of_mem_filter hmem)

theorem removeStep_roots_self (G : SceneGraph) (id : String) (node : SceneNode)
    (hp : node.parent = none) : id ∉ (removeStep G id node).roots := by
  unfold removeStep
  rw [hp]
  intro hmem
  have := List.of_mem_filter hmem
  simp at this

/-- The node map never grows under `remove_node_fuel`. -/
theorem remove_node_fuel_length :
    ∀ (fuel : Nat) (G : SceneGraph) (id : String),
      (remove_node_fuel fuel G id).2.nodes.length ≤ G.nodes.length := by
  intro fuel
  induction fuel with
  | zero => intro G id; exact le_refl _
  | succ f ih =>
    intro G id
    cases hid : lookupA G.nodes id with
    | none => simp [remove_node_fuel, hid]
    | some node =>
      simp only [remove_node_fuel, hid]
      have hstep : (removeStep G id node).nodes.length ≤ G.nodes.length :=
        le_trans (removeStep_length G id node) (List.length_filter_le _ _)
      exact le_trans
        (foldl_invariant (fun s => s.nodes.length ≤ (removeStep G id node).nodes.length)
          (fun acc child_id => (remove_node_fuel f acc child_id).2)
          (fun s a hs => le_trans (ih s a) hs) node.children _ (le_refl _))
        hstep

/-- Absent keys stay absent under `remove_node_fuel` (no resurrection). -/
theorem remove_node_fuel_absent :
    ∀ (fuel : Nat) (G : SceneGraph) (id k : String),
      lookupA G.nodes k = none →
      lookupA (remove_node_fuel fuel G id).2.nodes k = none := by
  intro fuel
  induction fuel with
  | zero => intro G id k h; exact h
  | succ f ih =>
    intro G id k h
    cases hid : lookupA G.nodes id with
    | none => simpa [remove_node_fuel, hid] using h
    | some node =>
      simp only [remove_node_fuel, hid]
      exact foldl_invariant (fun s => lookupA s.nodes k = none)
        (fun acc child_id => (remove_node_fuel f acc child_id).2)
        (fun s a hs => ih s a k hs) node.children _
        (removeStep_absent G id node k h)

/-- After `remove_node_fuel` with positive fuel, the removed id is absent. -/
theorem remove_node_fuel_self (f : Nat) (G : SceneGraph) (id : String) :
    lookupA (remove_node_fuel (f + 1) G id).2.nodes id = none := by
  cases hid : lookupA G.nodes id with
  | none => simpa [remove_node_fuel, hid] using hid
  | some node =>
    simp only [remove_node_fuel, hid]
    exact foldl_invariant (fun s => lookupA s.nodes id = none)
      (fun acc child_id => (remove_node_fuel f acc child_id).2)
      (fun s a hs => remove_node_fuel_absent f s a id hs) node.children _
      (removeStep_self G id node)

/-- Entries never enter the roots list under `remove_node_fuel`. -/
theorem remove_node_fuel_roots :
    ∀ (fuel : Nat) (G : SceneGraph) (id k : String),
      k ∉ G.roots → k ∉ (remove_node_fuel fuel G id).2.roots := by
  intro fuel
  induction fuel with
  | zero => intro G id k h; exact h
  | succ f ih =>
    intro G id k h
    cases hid : lookupA G.nodes id with
    | none => simpa [remove_node_fuel, hid] using h
    | some node =>
      simp only [remove_node_fuel, hid]
      exact foldl_invariant (fun s => k ∉ s.roots)
        (fun acc child_id => (remove_node_fuel f acc child_id).2)
        (fun s a hs => ih s a k hs) node.children _
        (removeStep_roots_not_mem G id node k h)


/-- Core preservation: one `remove_node_fuel` call keeps the graph a reduct of
the original and preserves closure with respect to a fixed exception set, given
enough fuel.  Fuel `> nodes.length` is always enough because the map strictly
shrinks before each recursive call. -/
theorem remove_node_fuel_preserves (g : SceneGraph) :
    ∀ (fuel : Nat) (G : SceneGraph) (id : String) (exc : List (String × String)),
      G.nodes.length < fuel → Reduct g G → ClosedExc g G exc →
      Reduct g (remove_node_fuel fuel G id).2 ∧
      ClosedExc g (remove_node_fuel fuel G id).2 exc := by
  intro fuel
  induction fuel with
  | zero =>
    intro G id exc hlen
    exact absurd hlen (Nat.not_lt_zero _)
  | succ f ih =>
    intro G id exc hlen hred hcl
    cases hid : lookupA G.nodes id with
    | none =>
      simp only [remove_node_fuel, hid]
      exact ⟨hred, hcl⟩
    | some node =>
      simp only [remove_node_fuel, hid]
      obtain ⟨ng, hng, hngch⟩ := hred.2 id node hid
      have hredS : Reduct g (removeStep G id node) := by
        constructor
        · intro k hk
          exact removeStep_absent G id node k (hred.1 k hk)
        · intro k n'' hk
          obtain ⟨nG, hnG, hnGch⟩ := removeStep_lookup_struct G id node k n'' hk
          obtain ⟨n, hn, hnch⟩ := hred.2 k nG hnG
          refine ⟨n, hn, ?_⟩
          intro c hc
          rcases hnch c hc with hcin | hcnone
          · rcases hnGch c hcin with hcin' | hcid
            · exact Or.inl hcin'
            · subst hcid
              exact Or.inr (removeStep_self G c node)
          · exact Or.inr (removeStep_absent G id node c hcnone)
      have hclS : ClosedExc g (removeStep G id node)
          (exc ++ node.children.map (fun c => (id, c))) := by
        intro k nk c hk hc habs
        by_cases hkid : k = id
        · subst hkid
          rw [hng] at hk
          injection hk with hk
          subst hk
          rcases hngch c hc with hcin | hcnone
          · exact Or.inl (List.mem_append_right _ (List.mem_map.mpr ⟨c, hcin, rfl⟩))
          · exact Or.inr (removeStep_absent G k node c hcnone)
        · have hGabs : lookupA G.nodes k = none :=
            removeStep_absent_rev G id node k hkid habs
          rcases hcl k nk c hk hc hGabs with hmem | hcnone
          · exact Or.inl (List.mem_append_left _ hmem)
          · exact Or.inr (removeStep_absent G id node c hcnone)
      have hlenS : (removeStep G id node).nodes.length < f := by
        have h1 := removeStep_length_lt G id node hid
        omega
      have hfold : ∀ (cs : List String) (H : SceneGraph),
          H.nodes.length < f → Reduct g H →
          ClosedExc g H (exc ++ cs.map (fun c => (id, c))) →
          Reduct g (cs.foldl (fun acc c => (remove_node_fuel f acc c).2) H) ∧
          ClosedExc g (cs.foldl (fun acc c => (remove_node_fuel f acc c).2) H) exc := by
        intro cs
        induction cs with
        | nil =>
          intro H h1 h2 h3
          exact ⟨h2, by simpa using h3⟩
        | cons c cs' ihc =>
          intro H h1 h2 h3
          obtain ⟨f', rfl⟩ : ∃ f', f = f' + 1 := ⟨f - 1, by omega⟩
          have hstep := ih H c (exc ++ (c :: cs').map (fun c => (id, c))) h1 h2 h3
          have habs_c : lookupA (remove_node_fuel (f' + 1) H c).2.nodes c = none :=
            remove_node_fuel_self f' H c
          have hstep2 : ClosedExc g (remove_node_fuel (f' + 1) H c).2
              (exc ++ cs'.map (fun c => (id, c))) := by
            refine ClosedExc_weaken hstep.2 ?_
            intro e he
            rcases List.mem_append.mp he with he | he
            · exact Or.inl (List.mem_append_left _ he)
            · rcases List.mem_cons.mp he with he | he
              · subst he
                exact Or.inr habs_c
              · exact Or.inl (List.mem_append_right _ he)
          have hlen2 : (remove_node_fuel (f' + 1) H c).2.nodes.length < f' + 1 :=
            lt_of_le_of_lt (remove_node_fuel_length (f' + 1) H c) h1
          exact ihc (remove_node_fuel (f' + 1) H c).2 hlen2 hstep.1 hstep2
      exact hfold node.children (removeStep G id node) hlenS hredS hclS

/-- In a fully closed pruning of `g`, once a node is gone all its descendants
are gone. -/
theorem closed_absent_desc (g G : SceneGraph) (hcl : ClosedExc g G []) :
    ∀ a b, Desc g a b → lookupA G.nodes a = none → lookupA G.nodes b = none := by
  intro a b h
  induction h with
  | child na ha hb =>
    intro habs
    rcases hcl _ _ _ ha hb habs with hmem | hn
    · cases hmem
    · exact hn
  | trans na ha hb hd ihd =>
    intro habs
    rcases hcl _ _ _ ha hb habs with hmem | hn
    · cases hmem
    · exact ihd hn

/-- C10: `SceneGraph::remove_node` on an absent id returns `None` and leaves
the graph unchanged; on a present id it returns the node and removes it and
every descendant (along stored children lists) from the node map, and removes
it from the roots list when it was a root. -/
theorem c10_remove_node_removes_descendants (g : SceneGraph) (id : String) :
    (lookupA g.nodes id = none → g.remove_node id = (none, g)) ∧
    (∀ node, lookupA g.nodes id = some node →
      (g.remove_node id).1 = some node ∧
      lookupA (g.remove_node id).2.nodes id = none ∧
      (∀ d, Desc g id d → lookupA (g.remove_node id).2.nodes d = none) ∧
      (node.parent = none → id ∉ (g.remove_node id).2.roots)) := by
  constructor
  · intro h
    simp [SceneGraph.remove_node, remove_node_fuel, h]
  · intro node hid
    have h1 : (g.remove_node id).1 = some node := by
      simp [SceneGraph.remove_node, remove_node_fuel, hid]
    have hself : lookupA (g.remove_node id).2.nodes id = none := by
      show lookupA (remove_node_fuel (g.nodes.length + 1) g id).2.nodes id = none
      exact remove_node_fuel_self g.nodes.length g id
    have hP := remove_node_fuel_preserves g (g.nodes.length + 1) g id []
      (Nat.lt_succ_self _) (Reduct.refl g) (ClosedExc_nil_self g)
    have hdesc : ∀ d, Desc g id d → lookupA (g.remove_node id).2.nodes d = none := by
      intro d hd
      show lookupA (remove_node_fuel (g.nodes.length + 1) g id).2.nodes d = none
      exact closed_absent_desc g _ hP.2 id d hd hself
    have hroots : node.parent = none → id ∉ (g.remove_node id).2.roots := by
      intro hp
      show id ∉ (remove_node_fuel (g.nodes.length + 1) g id).2.roots
      simp only [remove_node_fuel, hid]
      exact foldl_invariant (fun s => id ∉ s.roots)
        (fun acc child_id => (remove_node_fuel g.nodes.length acc child_id).2)
        (fun s a hs => remove_node_fuel_roots g.nodes.length s a id hs) node.children _
        (removeStep_roots_self g id node hp)
    exact ⟨h1, hself, hdesc, hroots⟩

/-- Concrete chain a → b → c for the C10 witness. -/
def c10nodeA : SceneNode :=
  { id := "a", parent := none, children := ["b"],
    local_transform := Transform.IDENTITY, world_transform := Transform.IDENTITY,
    local_bounds := ⟨0, 0, 0, 0⟩, world_bounds := ⟨0, 0, 0, 0⟩,
    z_index := ['Z', 'z'], visible := true, dirty := true }

/-- Node b, child of a. -/
def c10nodeB : SceneNode :=
  { c10nodeA with id := "b", parent := some "a", children := ["c"] }

/-- Node c, child of b. -/
def c10nodeC : SceneNode :=
  { c10nodeA with id := "c", parent := some "b", children := [] }

/-- Three-node chain scene graph. -/
def c10graph : SceneGraph :=
  { nodes := [("a", c10nodeA), ("b", c10nodeB), ("c", c10nodeC)], roots := ["a"] }

/-- C10 witness: removing absent "x" is a no-op; removing the root "a" returns
it, deletes "a" and its grandchild "c", and drops "a" from the roots. -/
theorem c10_remove_node_removes_descendants_witness :
    c10graph.remove_node "x" = (none, c10graph) ∧
    (c10graph.remove_node "a").1 = some c10nodeA ∧
    lookupA (c10graph.remove_node "a").2.nodes "a" = none ∧
    lookupA (c10graph.remove_node "a").2.nodes "c" = none ∧
    "a" ∉ (c10graph.remove_node "a").2.roots :=
  ⟨(c10_remove_node_removes_descendants c10graph "x").1 (by decide),
   ((c10_remove_node_removes_descendants c10graph "a").2 c10nodeA (by decide)).1,
   ((c10_remove_node_removes_descendants c10graph "a").2 c10nodeA (by decide)).2.1,
   ((c10_remove_node_removes_descendants c10graph "a").2 c10nodeA (by decide)).2.2.1 "c"
     (Desc.trans (a := "a") (b := "b") (c := "c") c10nodeA (by decide) (by decide)
       (Desc.child (a := "b") (b := "c") c10nodeB (by decide) (by decide))),
   ((c10_remove_node_removes_descendants c10graph "a").2 c10nodeA (by decide)).2.2.2
     (by decide)⟩

/-! ## Hierarchy and transform propagation (canvas-core/src/ecs/hierarchy.rs) -/

/-- `Transform::IDENTITY` is a left unit for `multiply`. -/
theorem Transform.IDENTITY_multiply (t : Transform) :
    Transform.IDENTITY.multiply t = t := by
  cases t
  simp [Transform.multiply, Transform.IDENTITY]

/-- `Transform::IDENTITY` is a right unit for `multiply`. -/
theorem Transform.multiply_IDENTITY (t : Transform) :
    t.multiply Transform.IDENTITY = t := by
  cases t
  simp [Transform.multiply, Transform.IDENTITY]

/-- `multiply` is associative. -/
theorem Transform.multiply_assoc (s t u : Transform) :
    (s.multiply t).multiply u = s.multiply (t.multiply u) := by
  cases s; cases t; cases u
  simp only [Transform.multiply, Transform.mk.injEq]
  refine ⟨?_, ?_, ?_, ?_, ?_, ?_⟩ <;> ring

/-- Modelled from the spec: `Transform::inverse` is called by
`reparent_preserve_world` in hierarchy.rs but is not defined anywhere in the
sources under verification; §4.6 of the spec specifies
`new_local = inverse(parent.world) · child.world`, so `inverse` is modelled as
the standard inverse of a 2×3 affine matrix (exact for invertible inputs). -/
def Transform.inverse (t : Transform) : Transform :=
  { a := t.d / (t.a * t.d - t.b * t.c)
    b := -t.b / (t.a * t.d - t.b * t.c)
    c := -t.c / (t.a * t.d - t.b * t.c)
    d := t.a / (t.a * t.d - t.b * t.c)
    tx := (t.c * t.ty - t.d * t.tx) / (t.a * t.d - t.b * t.c)
    ty := (t.b * t.tx - t.a * t.ty) / (t.a * t.d - t.b * t.c) }

/-- For an invertible transform, `t.multiply t.inverse = IDENTITY`. -/
theorem Transform.multiply_inverse (t : Transform)
    (h : t.a * t.d - t.b * t.c ≠ 0) :
    t.multiply t.inverse = Transform.IDENTITY := by
  cases t
  simp only [Transform.multiply, Transform.inverse, Transform.IDENTITY,
    Transform.mk.injEq] at *
  refine ⟨?_, ?_, ?_, ?_, ?_, ?_⟩ <;> field_simp <;> ring

/-- `IDENTITY.inverse = IDENTITY`. -/
theorem Transform.inverse_IDENTITY : Transform.IDENTITY.inverse = Transform.IDENTITY := by
  simp [Transform.inverse, Transform.IDENTITY]

/-- The local transform `propagate_transform_recursive` reads:
`TransformComponent.local` if present, else identity. -/
def nodeLocal (r : EntityRec) : Transform :=
  (r.transform.map (·.loc)).getD Transform.IDENTITY

/-- The per-entity update of `propagate_transform_recursive`: set the world
transform (when a `TransformComponent` is present), clear the dirty marker, and
write world bounds derived from local bounds (when present). -/
def propagateUpd (r : EntityRec) (wt : Transform) : EntityRec :=
  let r1 := match r.transform with
    | some tc => { r with transform := some { tc with world := wt } }
    | none => r
  let r2 := { r1 with dirty := false }
  match r.local_bounds with
  | some lb =>
      { r2 with world_bounds := some ⟨lb.x + wt.tx, lb.y + wt.ty, lb.width, lb.height⟩ }
  | none => r2

/-- `get_roots` from hierarchy.rs: renderable entities without a parent. -/
def get_roots (w : World) : List Entity :=
  (w.filter (fun kv => kv.2.renderable && kv.2.parent.isNone)).map (·.1)

/-- Fuel-indexed `propagate_transform_recursive` from hierarchy.rs.  The Rust
recursion follows children edges; on well-formed forests its depth is bounded
by the entity count, so fuel `length + 1` is always sufficient. -/
def propagate_rec : Nat → World → Entity → Transform → World
  | 0, w, _, _ => w
  | fuel + 1, w, e, pt =>
    match lookupA w e with
    | none => w
    | some r =>
      let wt := pt.multiply (nodeLocal r)
      let children := r.children.getD []
      let w1 := insertA w e (propagateUpd r wt)
      children.foldl (fun acc c => propagate_rec fuel acc c wt) w1

/-- `propagate_transforms` from hierarchy.rs: walk every root with the
identity parent transform. -/
def propagate_transforms (w : World) : World :=
  (get_roots w).foldl
    (fun acc root => propagate_rec (w.length + 1) acc root Transform.IDENTITY) w

/-- The `children.0.retain(|&c| c != child)` step shared by `set_parent` and
`remove_parent` in hierarchy.rs: drop `child` from `old_parent`'s children. -/
def unlinkOld (w : World) (child old_parent : Entity) : World :=
  match lookupA w old_parent with
  | some opr =>
    match opr.children with
    | some cl => insertA w old_parent { opr with children := some (cl.filter (· ≠ child)) }
    | none => w
  | none => w

/-- The first block of `set_parent` / `remove_parent`: if the child currently
has a parent, remove the child from that parent's children list. -/
def unlinkFromParent (w : World) (child : Entity) : World :=
  match lookupA w child with
  | some cr =>
    match cr.parent with
    | some old_parent => unlinkOld w child old_parent
    | none => w
  | none => w

/-- The parent-component write shared by `set_parent` (insert
`ParentComponent(parent)`) and `remove_parent` (remove the component), plus the
`DirtyTransform` marker both of them set on the child. -/
def markParent (w : World) (child : Entity) (parent : Option Entity) : World :=
  match lookupA w child with
  | some cr => insertA w child { cr with parent := parent, dirty := true }
  | none => w

/-- The final block of `set_parent`: append `child` to the new parent's
children list unless already present (creating the list if absent). -/
def relinkNew (w : World) (child parent : Entity) : World :=
  match lookupA w parent with
  | some pr =>
    match pr.children with
    | some cl =>
        if child ∈ cl then w
        else insertA w parent { pr with children := some (cl ++ [child]) }
    | none => insertA w parent { pr with children := some [child] }
  | none => w

/-- `set_parent` from hierarchy.rs: unlink from the old parent, write the new
parent component (marking dirty), link into the new parent's children. -/
def set_parent (w : World) (child parent : Entity) : World :=
  relinkNew (markParent (unlinkFromParent w child) child (some parent)) child parent

/-- `remove_parent` from hierarchy.rs: unlink from the old parent, then drop
the child's parent component (marking dirty). -/
def remove_parent (w : World) (child : Entity) : World :=
  markParent (unlinkFromParent w child) child none

/-- The linking-and-relocalizing part of `reparent_preserve_world` (everything
before the final `propagate_transforms` call), for an existing child. -/
def reparent_linked (w : World) (child : Entity) (new_parent : Option Entity)
    (world_transform : Transform) : World :=
  let parent_world : Transform := match new_parent with
    | some parent =>
      match lookupA w parent with
      | some pr => (pr.transform.map (·.world)).getD Transform.IDENTITY
      | none => Transform.IDENTITY
    | none => Transform.IDENTITY
  let new_local := parent_world.inverse.multiply world_transform
  let w1 := match new_parent with
    | some parent => set_parent w child parent
    | none => remove_parent w child
  match lookupA w1 child with
  | some cr1 =>
    match cr1.transform with
    | some tc => insertA w1 child { cr1 with transform := some { tc with loc := new_local } }
    | none => w1
  | none => w1

/-- `reparent_preserve_world` from hierarchy.rs: read the child's current world
transform, compute `new_local = inverse(parent.world) · child.world`, link,
assign the new local transform, and re-propagate. -/
def reparent_preserve_world (w : World) (child : Entity) (new_parent : Option Entity) :
    World :=
  match lookupA w child with
  | none => w
  | some cr =>
    propagate_transforms
      (reparent_linked w child new_parent ((cr.transform.map (·.world)).getD Transform.IDENTITY))

/-- The entity attributes `propagate_transforms` never changes. -/
def stableEq (r r' : EntityRec) : Prop :=
  r'.children = r.children ∧ r'.parent = r.parent ∧ r'.renderable = r.renderable ∧
  r'.transform.map (·.loc) = r.transform.map (·.loc) ∧ r'.local_bounds = r.local_bounds

/-- Entry-wise structural preservation of a world (same keys in the same
order, stable attributes unchanged). -/
def StableF (w w' : World) : Prop :=
  List.Forall₂ (fun kv kv' : Entity × EntityRec => kv'.1 = kv.1 ∧ stableEq kv.2 kv'.2) w w'

theorem stableEq_refl (r : EntityRec) : stableEq r r :=
  ⟨rfl, rfl, rfl, rfl, rfl⟩

theorem stableEq_trans {a b c : EntityRec} (h1 : stableEq a b) (h2 : stableEq b c) :
    stableEq a c :=
  ⟨h2.1.trans h1.1, h2.2.1.trans h1.2.1, h2.2.2.1.trans h1.2.2.1,
   h2.2.2.2.1.trans h1.2.2.2.1, h2.2.2.2.2.trans h1.2.2.2.2⟩

theorem stableEq_nodeLocal {r r' : EntityRec} (h : stableEq r r') :
    nodeLocal r' = nodeLocal r := by
  unfold nodeLocal
  rw [h.2.2.2.1]

theorem StableF_refl (w : World) : StableF w w :=
  List.forall₂_same.mpr (fun kv _ => ⟨rfl, stableEq_refl kv.2⟩)

theorem StableF_trans {w1 w2 w3 : World} (h1 : StableF w1 w2) (h2 : StableF w2 w3) :
    StableF w1 w3 := by
  induction h1 generalizing w3 with
  | nil => cases h2; exact List.Forall₂.nil
  | cons hr _ ih =>
    cases h2 with
    | cons hr2 hs2 =>
      exact List.Forall₂.cons ⟨hr2.1.trans hr.1, stableEq_trans hr.2 hr2.2⟩ (ih hs2)

theorem StableF_lookup_none {w w' : World} (h : StableF w w') (e : Entity)
    (hn : lookupA w e = none) : lookupA w' e = none := by
  induction h with
  | nil => rfl
  | cons hr hs ih =>
    rename_i kv kv' t t'
    by_cases hk : kv.1 = e
    · rw [lookupA_cons_eq kv t e hk] at hn
      cases hn
    · rw [lookupA_cons_ne kv t e hk] at hn
      rw [lookupA_cons_ne kv' t' e (by rw [hr.1]; exact hk)]
      exact ih hn

theorem StableF_lookup_some {w w' : World} (h : StableF w w') (e : Entity)
    (r : EntityRec) (hs : lookupA w e = some r) :
    ∃ r', lookupA w' e = some r' ∧ stableEq r r' := by
  induction h with
  | nil => cases hs
  | cons hr hrest ih =>
    rename_i kv kv' t t'
    by_cases hk : kv.1 = e
    · rw [lookupA_cons_eq kv t e hk] at hs
      injection hs with hs
      subst hs
      exact ⟨kv'.2, lookupA_cons_eq kv' t' e (by rw [hr.1]; exact hk), hr.2⟩
    · rw [lookupA_cons_ne kv t e hk] at hs
      rw [lookupA_cons_ne kv' t' e (by rw [hr.1]; exact hk)]
      exact ih hs

theorem keysA_stable {w w' : World} (h : StableF w w') : keysA w' = keysA w := by
  induction h with
  | nil => rfl
  | cons hr _ ih =>
    simp only [keysA, List.map_cons] at *
    rw [hr.1, ih]

theorem length_stable {w w' : World} (h : StableF w w') : w'.length = w.length :=
  h.length_eq.symm

theorem get_roots_stable {w w' : World} (h : StableF w w') :
    get_roots w' = get_roots w := by
  induction h with
  | nil => rfl
  | cons hr hrest ih =>
    rename_i kv kv' t t'
    simp only [get_roots, List.filter_cons]
    have hpred : (kv'.2.renderable && kv'.2.parent.isNone)
        = (kv.2.renderable && kv.2.parent.isNone) := by
      rw [hr.2.2.2.1, hr.2.2.1]
    rw [hpred]
    by_cases hp : (kv.2.renderable && kv.2.parent.isNone) = true
    · simp only [hp, if_pos]
      simp only [List.map_cons, hr.1]
      simpa [get_roots] using congrArg (fun l => l) ih
    · simp only [Bool.not_eq_true] at hp
      simp only [hp]
      simpa [get_roots] using ih

/-- A list of trees rooted at `es` over world `w`, with pre-order flattening
`fl`: tree edges are the stored `ChildrenComponent` lists. -/
inductive Forest (w : World) : List Entity → List Entity → Prop where
  | nil : Forest w [] []
  | cons : ∀ (e : Entity) (r : EntityRec) (es fl fls : List Entity),
      lookupA w e = some r →
      Forest w (r.children.getD []) fl →
      Forest w es fls →
      Forest w (e :: es) (e :: (fl ++ fls))

/-- Clean forest: each listed tree is fully propagated under the given parent
transform — world transforms, dirty flags and world bounds all agree with what
`propagate_transform_recursive` computes. -/
inductive CleanForest (w : World) : Transform → List Entity → List Entity → Prop where
  | nil : ∀ pt, CleanForest w pt [] []
  | cons : ∀ (pt : Transform) (e : Entity) (r : EntityRec) (es fl fls : List Entity),
      lookupA w e = some r →
      (∀ tc, r.transform = some tc → tc.world = pt.multiply (nodeLocal r)) →
      r.dirty = false →
      (∀ lb, r.local_bounds = some lb →
        r.world_bounds = some ⟨lb.x + (pt.multiply (nodeLocal r)).tx,
          lb.y + (pt.multiply (nodeLocal r)).ty, lb.width, lb.height⟩) →
      CleanForest w (pt.multiply (nodeLocal r)) (r.children.getD []) fl →
      CleanForest w pt es fls →
      CleanForest w pt (e :: es) (e :: (fl ++ fls))

theorem Forest_stable {w w' : World} (h : StableF w w') :
    ∀ {es fl : List Entity}, Forest w es fl → Forest w' es fl := by
  intro es fl hf
  induction hf with
  | nil => exact Forest.nil
  | cons e r es fl fls hr hc hs ihc ihs =>
    obtain ⟨r', hr', hst⟩ := StableF_lookup_some h e r hr
    refine Forest.cons e r' es fl fls hr' ?_ ihs
    rw [hst.1]
    exact ihc

theorem Forest_mem_keys {w : World} :
    ∀ {es fl : List Entity}, Forest w es fl → ∀ e ∈ fl, ∃ r, lookupA w e = some r := by
  intro es fl hf
  induction hf with
  | nil => intro e he; cases he
  | cons e r es fl fls hr hc hs ihc ihs =>
    intro k hk
    rcases List.mem_cons.mp hk with rfl | hk
    · exact ⟨r, hr⟩
    · rcases List.mem_append.mp hk with hk | hk
      · exact ihc k hk
      · exact ihs k hk

theorem CleanForest_frame {w w' : World} :
    ∀ {pt : Transform} {es fl : List Entity}, CleanForest w pt es fl →
      (∀ k ∈ fl, lookupA w' k = lookupA w k) → CleanForest w' pt es fl := by
  intro pt es fl hcf
  induction hcf with
  | nil => intro _; exact CleanForest.nil _
  | cons pt e r es fl fls hr hw hd hb hc hs ihc ihs =>
    intro hframe
    refine CleanForest.cons pt e r es fl fls ?_ hw hd hb ?_ ?_
    · rw [hframe e (by simp)]
      exact hr
    · exact ihc (fun k hk => hframe k (by simp [hk]))
    · exact ihs (fun k hk => hframe k (by simp [hk]))

theorem map_replace_id_of_no_key {κ β : Type} [DecidableEq κ] (e : κ) (v : β) :
    ∀ (t : List (κ × β)), (∀ kv ∈ t, kv.1 ≠ e) →
      t.map (fun kv => if kv.1 = e then (e, v) else kv) = t := by
  intro t
  induction t with
  | nil => intro _; rfl
  | cons kv t ih =>
    intro h
    rw [List.map_cons, if_neg (h kv (by simp)), ih (fun kv' h' => h kv' (by simp [h']))]

/-- Replacing an entry by a stably-equal one preserves the structure. -/
theorem StableF_insertA {w : World} {e : Entity} {r r' : EntityRec}
    (hnd : (keysA w).Nodup) (hl : lookupA w e = some r) (hst : stableEq r r') :
    StableF w (insertA w e r') := by
  have hf : (w.find? (fun kv => kv.1 = e)).isSome := by
    unfold lookupA at hl
    cases hfe : w.find? (fun kv => kv.1 = e) with
    | none => rw [hfe] at hl; cases hl
    | some x => simp
  rw [insertA, if_pos hf]
  clear hf
  induction w with
  | nil => cases hl
  | cons kv t ih =>
    rw [List.map_cons]
    have hnd' : kv.1 ∉ keysA t ∧ (keysA t).Nodup := by
      simpa [keysA, List.nodup_cons] using hnd
    by_cases hk : kv.1 = e
    · have hkv2 : kv.2 = r := by
        rw [lookupA_cons_eq kv t e hk] at hl
        injection hl
      rw [if_pos hk]
      refine List.Forall₂.cons ⟨hk.symm, hkv2 ▸ hst⟩ ?_
      have hmap : t.map (fun kv => if kv.1 = e then (e, r') else kv) = t := by
        refine map_replace_id_of_no_key e r' t ?_
        intro kv' h'
        intro habs
        rw [← hk] at habs
        exact hnd'.1 (habs ▸ List.mem_map_of_mem (·.1) h')
      rw [hmap]
      exact StableF_refl t
    · rw [if_neg hk]
      refine List.Forall₂.cons ⟨rfl, stableEq_refl kv.2⟩ ?_
      rw [lookupA_cons_ne kv t e hk] at hl
      exact ih hnd'.2 hl

/-- Inserting the value already present is a no-op on unique-key lists. -/
theorem insertA_self {κ β : Type} [DecidableEq κ] {l : List (κ × β)} {k : κ} {v : β}
    (hnd : (l.map (·.1)).Nodup) (hl : lookupA l k = some v) : insertA l k v = l := by
  have hf : (l.find? (fun kv => kv.1 = k)).isSome := by
    unfold lookupA at hl
    cases hfe : l.find? (fun kv => kv.1 = k) with
    | none => rw [hfe] at hl; cases hl
    | some x => simp
  rw [insertA, if_pos hf]
  clear hf
  induction l with
  | nil => cases hl
  | cons kv t ih =>
    rw [List.map_cons]
    have hnd' : kv.1 ∉ t.map (·.1) ∧ (t.map (·.1)).Nodup := by
      simpa [List.nodup_cons] using hnd
    by_cases hk : kv.1 = k
    · have hkv2 : kv.2 = v := by
        rw [lookupA_cons_eq kv t k hk] at hl
        injection hl
      rw [if_pos hk]
      have hmap : t.map (fun kv => if kv.1 = k then (k, v) else kv) = t := by
        refine map_replace_id_of_no_key k v t ?_
        intro kv' h' habs
        rw [← hk] at habs
        exact hnd'.1 (habs ▸ List.mem_map_of_mem (·.1) h')
      rw [hmap, ← hk, ← hkv2]
    · rw [if_neg hk]
      rw [lookupA_cons_ne kv t k hk] at hl
      rw [ih hnd'.2 hl]

theorem propagateUpd_stable (r : EntityRec) (wt : Transform) :
    stableEq r (propagateUpd r wt) := by
  unfold propagateUpd stableEq
  cases ht : r.transform <;> cases hb : r.local_bounds <;> simp [ht, hb]

theorem propagateUpd_dirty (r : EntityRec) (wt : Transform) :
    (propagateUpd r wt).dirty = false := by
  unfold propagateUpd
  cases ht : r.transform <;> cases hb : r.local_bounds <;> simp [ht, hb]

theorem propagateUpd_world (r : EntityRec) (wt : Transform) :
    ∀ tc, (propagateUpd r wt).transform = some tc → tc.world = wt := by
  unfold propagateUpd
  cases ht : r.transform <;> cases hb : r.local_bounds <;> intro tc h <;>
    simp [ht, hb] at h
  · rw [← h]
  · rw [← h]

theorem propagateUpd_bounds (r : EntityRec) (wt : Transform) :
    ∀ lb, (propagateUpd r wt).local_bounds = some lb →
      (propagateUpd r wt).world_bounds
        = some ⟨lb.x + wt.tx, lb.y + wt.ty, lb.width, lb.height⟩ := by
  unfold propagateUpd
  cases ht : r.transform <;> cases hb : r.local_bounds <;> intro lb h <;>
    simp [ht, hb] at h ⊢ <;> try exact ⟨congrArg (·.x) h, congrArg (·.y) h,
      congrArg (·.width) h, congrArg (·.height) h⟩

/-- Main correctness of the propagation fold: it preserves the world's
structure, touches only the forest's nodes, and leaves the forest clean. -/
theorem propagate_spec :
    ∀ (n : Nat) (es fl : List Entity) (w : World) (pt : Transform) (fuel : Nat),
      fl.length ≤ n → (keysA w).Nodup → Forest w es fl → fl.Nodup → fl.length < fuel →
      StableF w (es.foldl (fun acc e => propagate_rec fuel acc e pt) w) ∧
      (∀ k, k ∉ fl →
        lookupA (es.foldl (fun acc e => propagate_rec fuel acc e pt) w) k = lookupA w k) ∧
      CleanForest (es.foldl (fun acc e => propagate_rec fuel acc e pt) w) pt es fl := by
  intro n
  induction n with
  | zero =>
    intro es fl w pt fuel hlen hnd hF hnod hfuel
    have hfl : fl = [] := List.eq_nil_of_length_eq_zero (Nat.le_zero.mp hlen)
    subst hfl
    cases hF with
    | nil => exact ⟨StableF_refl w, fun k _ => rfl, CleanForest.nil pt⟩
  | succ m ih =>
    intro es fl w pt fuel hlen hnd hF hnod hfuel
    cases hF with
    | nil => exact ⟨StableF_refl w, fun k _ => rfl, CleanForest.nil pt⟩
    | cons e r es' fle fls hr hFc hFs =>
      obtain ⟨f, rfl⟩ : ∃ f, fuel = f + 1 := ⟨fuel - 1, by omega⟩
      have hlen' : 1 + fle.length + fls.length ≤ m + 1 := by
        simpa [List.length_append, Nat.add_comm, Nat.add_assoc, Nat.add_left_comm] using hlen
      have hfuel' : 1 + fle.length + fls.length < f + 1 := by
        simpa [List.length_append, Nat.add_comm, Nat.add_assoc, Nat.add_left_comm] using hfuel
      have hlfle : fle.length ≤ m := by omega
      have hlfls : fls.length ≤ m := by omega
      have hfle_f : fle.length < f := by omega
      have hfls_f1 : fls.length < f + 1 := by omega
      have hnodparts : e ∉ fle ++ fls ∧ fle.Nodup ∧ fls.Nodup ∧ ∀ x ∈ fle, x ∉ fls := by
        rw [List.nodup_cons] at hnod
        refine ⟨hnod.1, ?_, ?_, ?_⟩
        · exact (List.nodup_append.mp hnod.2).1
        · exact (List.nodup_append.mp hnod.2).2.1
        · exact fun x hx => (List.nodup_append.mp hnod.2).2.2 hx
      rw [List.foldl_cons]
      have hone : propagate_rec (f + 1) w e pt
          = (r.children.getD []).foldl
              (fun acc c => propagate_rec f acc c (pt.multiply (nodeLocal r)))
              (insertA w e (propagateUpd r (pt.multiply (nodeLocal r)))) := by
        simp [propagate_rec, hr]
      rw [hone]
      set wt := pt.multiply (nodeLocal r) with hwt
      set r3 := propagateUpd r wt with hr3
      set w1 := insertA w e r3 with hw1
      have hst3 : stableEq r r3 := propagateUpd_stable r wt
      have hs1 : StableF w w1 := StableF_insertA hnd hr hst3
      have hnd1 : (keysA w1).Nodup := by rw [keysA_stable hs1]; exact hnd
      have hFc1 : Forest w1 (r.children.getD []) fle := Forest_stable hs1 hFc
      have hchild := ih (r.children.getD []) fle w1 wt f hlfle hnd1 hFc1
        hnodparts.2.1 hfle_f
      set w2 := (r.children.getD []).foldl (fun acc c => propagate_rec f acc c wt) w1
        with hw2
      have hs12 : StableF w w2 := StableF_trans hs1 hchild.1
      have hnd2 : (keysA w2).Nodup := by rw [keysA_stable hs12]; exact hnd
      have hFs2 : Forest w2 es' fls := Forest_stable hs12 hFs
      have hsib := ih es' fls w2 pt (f + 1) hlfls hnd2 hFs2 hnodparts.2.2.1 hfls_f1
      set w3 := es'.foldl (fun acc c => propagate_rec (f + 1) acc c pt) w2 with hw3
      have hlook1 : lookupA w1 e = some r3 := lookupA_insertA_self w e r3
      have henotfle : e ∉ fle := fun hmem => hnodparts.1 (List.mem_append_left _ hmem)
      have henotfls : e ∉ fls := fun hmem => hnodparts.1 (List.mem_append_right _ hmem)
      have hlook2 : lookupA w2 e = some r3 := by
        rw [hchild.2.1 e henotfle]
        exact hlook1
      have hlook3 : lookupA w3 e = some r3 := by
        rw [hsib.2.1 e henotfls]
        exact hlook2
      refine ⟨StableF_trans hs12 hsib.1, ?_, ?_⟩
      · intro k hk
        have hke : k ≠ e := fun he => hk (he ▸ List.mem_cons_self _ _)
        have hkfle : k ∉ fle := fun hm => hk (by simp [hm])
        have hkfls : k ∉ fls := fun hm => hk (by simp [hm])
        rw [hsib.2.1 k hkfls, hchild.2.1 k hkfle, hw1,
          lookupA_insertA_ne w e k r3 hke]
      · have hchildren3 : r3.children = r.children := hst3.1
        have hlocal3 : nodeLocal r3 = nodeLocal r := stableEq_nodeLocal hst3
        have hcleanc : CleanForest w3 wt (r3.children.getD []) fle := by
          rw [hchildren3]
          refine CleanForest_frame hchild.2.2 ?_
          intro k hkfle
          exact hsib.2.1 k (fun hm => hnodparts.2.2.2 k hkfle hm)
        refine CleanForest.cons pt e r3 es' fle fls hlook3 ?_ (propagateUpd_dirty r wt) ?_ ?_ hsib.2.2
        · intro tc htc
          rw [propagateUpd_world r wt tc htc, hwt, hlocal3]
        · intro lb hlb
          have := propagateUpd_bounds r wt lb hlb
          rw [hlocal3, ← hwt]
          exact this
        · rw [hlocal3, ← hwt]
          exact hcleanc

theorem lookupA_mem_keys {κ β : Type} [DecidableEq κ] {l : List (κ × β)} {k : κ}
    {v : β} (h : lookupA l k = some v) : k ∈ keysA l := by
  unfold lookupA at h
  cases hf : l.find? (fun kv => kv.1 = k) with
  | none => rw [hf] at h; cases h
  | some kv =>
    have hmem := List.mem_of_find?_eq_some hf
    have hkey : kv.1 = k := by
      have := List.find?_some hf
      simpa using this
    exact hkey ▸ List.mem_map_of_mem (·.1) hmem

theorem CleanForest_dirty {w : World} :
    ∀ {pt : Transform} {es fl : List Entity}, CleanForest w pt es fl →
      ∀ e ∈ fl, ∀ r, lookupA w e = some r → r.dirty = false := by
  intro pt es fl h
  induction h with
  | nil => intro e he; cases he
  | cons pt e r es fl fls hr hw hd hb hc hs ihc ihs =>
    intro k hk rk hrk
    rcases List.mem_cons.mp hk with rfl | hk
    · rw [hr] at hrk
      injection hrk with h
      rw [← h]
      exact hd
    · rcases List.mem_append.mp hk with h | h
      · exact ihc k h rk hrk
      · exact ihs k h rk hrk

theorem CleanForest_top {w : World} :
    ∀ {pt : Transform} {es fl : List Entity}, CleanForest w pt es fl →
      ∀ e ∈ es, ∀ r, lookupA w e = some r →
        ∀ tc, r.transform = some tc → tc.world = pt.multiply (nodeLocal r) := by
  intro pt es fl h
  induction h with
  | nil => intro e he; cases he
  | cons pt e r es fl fls hr hw hd hb hc hs ihc ihs =>
    intro k hk rk hrk tc htc
    rcases List.mem_cons.mp hk with rfl | hk
    · rw [hr] at hrk
      injection hrk with h
      subst h
      exact hw tc htc
    · exact ihs k hk rk hrk tc htc

theorem CleanForest_edges {w : World} :
    ∀ {pt : Transform} {es fl : List Entity}, CleanForest w pt es fl →
      ∀ p ∈ fl, ∀ rp, lookupA w p = some rp → ∀ c ∈ rp.children.getD [],
        ∀ rc, lookupA w c = some rc → ∀ tcc, rc.transform = some tcc →
          ∀ tcp, rp.transform = some tcp →
            tcc.world = tcp.world.multiply (nodeLocal rc) := by
  intro pt es fl h
  induction h with
  | nil => intro p hp; cases hp
  | cons pt e r es fl fls hr hw hd hb hc hs ihc ihs =>
    intro p hp rp hrp c hcmem rc hrc tcc htcc tcp htcp
    rcases List.mem_cons.mp hp with rfl | hp
    · rw [hr] at hrp
      injection hrp with h
      subst h
      have := CleanForest_top hc c hcmem rc hrc tcc htcc
      rw [this, hw tcp htcp]
    · rcases List.mem_append.mp hp with h | h
      · exact ihc p h rp hrp c hcmem rc hrc tcc htcc tcp htcp
      · exact ihs p h rp hrp c hcmem rc hrc tcc htcc tcp htcp

/-- When a record already carries the propagated values, the update is the
identity. -/
theorem propagateUpd_id (r : EntityRec) (wt : Transform)
    (hw : ∀ tc, r.transform = some tc → tc.world = wt)
    (hd : r.dirty = false)
    (hb : ∀ lb, r.local_bounds = some lb →
      r.world_bounds = some ⟨lb.x + wt.tx, lb.y + wt.ty, lb.width, lb.height⟩) :
    propagateUpd r wt = r := by
  unfold propagateUpd
  cases r with
  | mk tf z vis par ch dirty lb wb ren =>
    simp only at hw hd hb ⊢
    cases tf with
    | none =>
      cases lb with
      | none => simp [hd]
      | some lbv => simp [hd, (hb lbv rfl).symm]
    | some tc =>
      cases tc with
      | mk tloc tworld =>
        have htc : tworld = wt := hw ⟨tloc, tworld⟩ rfl
        subst htc
        cases lb with
        | none => simp [hd]
        | some lbv => simp [hd, (hb lbv rfl).symm]

/-- Propagation is a no-op on a clean forest. -/
theorem propagate_fixpoint :
    ∀ (n : Nat) (es fl : List Entity) (w : World) (pt : Transform) (fuel : Nat),
      fl.length ≤ n → (keysA w).Nodup → CleanForest w pt es fl → fl.length < fuel →
      es.foldl (fun acc e => propagate_rec fuel acc e pt) w = w := by
  intro n
  induction n with
  | zero =>
    intro es fl w pt fuel hlen hnd hcf hfuel
    have hfl : fl = [] := List.eq_nil_of_length_eq_zero (Nat.le_zero.mp hlen)
    subst hfl
    cases hcf with
    | nil => rfl
  | succ m ih =>
    intro es fl w pt fuel hlen hnd hcf hfuel
    cases hcf with
    | nil => rfl
    | cons pt e r es' fle fls hr hw hd hb hc hs =>
      obtain ⟨f, rfl⟩ : ∃ f, fuel = f + 1 := ⟨fuel - 1, by omega⟩
      have hlen' : 1 + fle.length + fls.length ≤ m + 1 := by
        simpa [List.length_append, Nat.add_comm, Nat.add_assoc, Nat.add_left_comm] using hlen
      have hfuel' : 1 + fle.length + fls.length < f + 1 := by
        simpa [List.length_append, Nat.add_comm, Nat.add_assoc, Nat.add_left_comm] using hfuel
      rw [List.foldl_cons]
      have hupd : propagateUpd r (pt.multiply (nodeLocal r)) = r :=
        propagateUpd_id r _ hw hd hb
      have hone : propagate_rec (f + 1) w e pt
          = (r.children.getD []).foldl
              (fun acc c => propagate_rec f acc c (pt.multiply (nodeLocal r))) w := by
        simp only [propagate_rec, hr, hupd]
        rw [insertA_self hnd hr]
      rw [hone]
      have hchild : (r.children.getD []).foldl
          (fun acc c => propagate_rec f acc c (pt.multiply (nodeLocal r))) w = w :=
        ih (r.children.getD []) fle w (pt.multiply (nodeLocal r)) f
          (by omega) hnd hc (by omega)
      rw [hchild]
      exact ih es' fls w pt (f + 1) (by omega) hnd hs (by omega)

/-- A well-formed scene forest: the trees rooted at `get_roots` have pre-order
flattening `flat`, without duplicates, keys are unique, and every entity occurs
in the forest. -/
def WFForest (w : World) (flat : List Entity) : Prop :=
  Forest w (get_roots w) flat ∧ flat.Nodup ∧ (keysA w).Nodup ∧
    ∀ k ∈ keysA w, k ∈ flat

/-- `propagate_transforms` preserves structure and leaves a clean forest. -/
theorem propagate_transforms_spec (w : World) (flat : List Entity)
    (hwf : WFForest w flat) :
    StableF w (propagate_transforms w) ∧
    CleanForest (propagate_transforms w) Transform.IDENTITY (get_roots w) flat := by
  obtain ⟨hF, hnod, hnd, _⟩ := hwf
  have hsub : flat ⊆ keysA w := by
    intro e he
    obtain ⟨r, hr⟩ := Forest_mem_keys hF e he
    exact lookupA_mem_keys hr
  have hlen : flat.length ≤ w.length := by
    have := (List.subperm_of_subset hnod hsub).length_le
    simpa [keysA] using this
  have := propagate_spec flat.length (get_roots w) flat w Transform.IDENTITY
    (w.length + 1) (le_refl _) hnd hF hnod (by omega)
  exact ⟨this.1, this.2.2⟩

/-- C4: on a well-formed scene forest, after `propagate_transforms` no entity
carries the dirty marker; every stored world transform equals the parent's
world transform times the node's own local transform, with roots using the
identity; and re-running `propagate_transforms` leaves the world unchanged. -/
theorem c4_propagate_transforms (w : World) (flat : List Entity)
    (hwf : WFForest w flat) :
    (∀ e r, lookupA (propagate_transforms w) e = some r → r.dirty = false) ∧
    (∀ p rp tcp c rc tcc,
      lookupA (propagate_transforms w) p = some rp → rp.transform = some tcp →
      c ∈ rp.children.getD [] → lookupA (propagate_transforms w) c = some rc →
      rc.transform = some tcc → tcc.world = tcp.world.multiply tcc.loc) ∧
    (∀ e r tc, e ∈ get_roots w → lookupA (propagate_transforms w) e = some r →
      r.transform = some tc → tc.world = Transform.IDENTITY.multiply tc.loc) ∧
    propagate_transforms (propagate_transforms w) = propagate_transforms w := by
  obtain ⟨hstable, hclean⟩ := propagate_transforms_spec w flat hwf
  obtain ⟨hF, hnod, hnd, hcomp⟩ := hwf
  have hkeys : keysA (propagate_transforms w) = keysA w := keysA_stable hstable
  have hmemflat : ∀ e (r : EntityRec), lookupA (propagate_transforms w) e = some r →
      e ∈ flat := by
    intro e r hr
    exact hcomp e (hkeys ▸ lookupA_mem_keys hr)
  refine ⟨?_, ?_, ?_, ?_⟩
  · intro e r hr
    exact CleanForest_dirty hclean e (hmemflat e r hr) r hr
  · intro p rp tcp c rc tcc hrp htcp hcmem hrc htcc
    have := CleanForest_edges hclean p (hmemflat p rp hrp) rp hrp c hcmem rc hrc
      tcc htcc tcp htcp
    rw [this]
    unfold nodeLocal
    rw [htcc]
    rfl
  · intro e r tc hroot hr htc
    have := CleanForest_top hclean e hroot r hr tc htc
    rw [this]
    unfold nodeLocal
    rw [htc]
    rfl
  · have hgoal : propagate_transforms (propagate_transforms w)
        = (get_roots (propagate_transforms w)).foldl
            (fun acc root =>
              propagate_rec ((propagate_transforms w).length + 1) acc root
                Transform.IDENTITY)
            (propagate_transforms w) := rfl
    rw [hgoal, get_roots_stable hstable, length_stable hstable]
    have hnd' : (keysA (propagate_transforms w)).Nodup := by
      rw [hkeys]; exact hnd
    have hsub : flat ⊆ keysA w := by
      intro e he
      obtain ⟨r, hr⟩ := Forest_mem_keys hF e he
      exact lookupA_mem_keys hr
    have hlen : flat.length ≤ w.length := by
      have := (List.subperm_of_subset hnod hsub).length_le
      simpa [keysA] using this
    exact propagate_fixpoint flat.length (get_roots w) flat (propagate_transforms w)
      Transform.IDENTITY (w.length + 1) (le_refl _) hnd' hclean (by omega)

/-- Root entity of the C4 witness world. -/
def c4rec1 : EntityRec :=
  { transform := some ⟨Transform.IDENTITY, Transform.IDENTITY⟩, z_index := none,
    visibility := none, parent := none, children := some [2], dirty := true,
    local_bounds := none, world_bounds := none, renderable := true }

/-- Child entity of the C4 witness world. -/
def c4rec2 : EntityRec :=
  { transform := some ⟨Transform.IDENTITY, Transform.IDENTITY⟩, z_index := none,
    visibility := none, parent := some 1, children := none, dirty := true,
    local_bounds := none, world_bounds := none, renderable := true }

/-- Two-entity parent/child world. -/
def c4world : World := [(1, c4rec1), (2, c4rec2)]

/-- The C4 witness world is a well-formed forest with flattening `[1, 2]`. -/
theorem c4world_wf : WFForest c4world [1, 2] :=
  ⟨Forest.cons 1 c4rec1 [] [2] [] rfl
      (Forest.cons 2 c4rec2 [] [] [] rfl Forest.nil Forest.nil) Forest.nil,
   by decide, by decide, by decide⟩

/-- C4 witness: the theorem applied to the concrete two-entity forest; the
closed idempotence conclusion. -/
theorem c4_propagate_transforms_witness :
    propagate_transforms (propagate_transforms c4world) = propagate_transforms c4world :=
  (c4_propagate_transforms c4world [1, 2] c4world_wf).2.2.2

/-! ## C5: reparenting preserves the child's world transform (hierarchy.rs) -/

theorem unlinkOld_lookup_ne (w : World) (child op k : Entity) (hk : k ≠ op) :
    lookupA (unlinkOld w child op) k = lookupA w k := by
  unfold unlinkOld
  split
  next opr h1 =>
    split
    next cl h2 => exact lookupA_insertA_ne w op k _ hk
    next h2 => rfl
  next h1 => rfl

theorem unlinkFromParent_lookup (w : World) (child k : Entity)
    (h : ∀ cr, lookupA w child = some cr → cr.parent ≠ some k) :
    lookupA (unlinkFromParent w child) k = lookupA w k := by
  unfold unlinkFromParent
  split
  next cr h1 =>
    split
    next op h2 =>
      refine unlinkOld_lookup_ne w child op k ?_
      intro he
      exact h cr h1 (by rw [h2, he])
    next h2 => rfl
  next h1 => rfl

theorem markParent_lookup_self (w : World) (child : Entity) (pv : Option Entity)
    (cr : EntityRec) (hc : lookupA w child = some cr) :
    lookupA (markParent w child pv) child
      = some { cr with parent := pv, dirty := true } := by
  unfold markParent
  rw [hc]
  exact lookupA_insertA_self w child _

theorem markParent_lookup_ne (w : World) (child k : Entity) (pv : Option Entity)
    (hk : k ≠ child) :
    lookupA (markParent w child pv) k = lookupA w k := by
  unfold markParent
  split
  next cr h1 => exact lookupA_insertA_ne w child k _ hk
  next h1 => rfl

theorem relinkNew_lookup_ne (w : World) (child parent k : Entity) (hk : k ≠ parent) :
    lookupA (relinkNew w child parent) k = lookupA w k := by
  unfold relinkNew
  split
  next pr h1 =>
    split
    next cl h2 =>
      split
      next hm => rfl
      next hm => exact lookupA_insertA_ne w parent k _ hk
    next h2 => exact lookupA_insertA_ne w parent k _ hk
  next h1 => rfl

theorem relinkNew_parent (w : World) (child parent : Entity) (pr : EntityRec)
    (hp : lookupA w parent = some pr) :
    ∃ prF, lookupA (relinkNew w child parent) parent = some prF ∧
      child ∈ prF.children.getD [] ∧ prF.transform = pr.transform := by
  unfold relinkNew
  split
  next pr1 h1 =>
    rw [hp] at h1
    injection h1 with h1
    subst h1
    split
    next cl h2 =>
      split
      next hm =>
        refine ⟨pr, hp, ?_, rfl⟩
        rw [h2]
        exact hm
      next hm =>
        refine ⟨{ pr with children := some (cl ++ [child]) },
          lookupA_insertA_self w parent _, ?_, rfl⟩
        simp
    next h2 =>
      refine ⟨{ pr with children := some [child] },
        lookupA_insertA_self w parent _, ?_, rfl⟩
      simp
  next h1 =>
    rw [hp] at h1
    cases h1

theorem lookupA_pair_mem {κ β : Type} [DecidableEq κ] {l : List (κ × β)} {k : κ}
    {v : β} (h : lookupA l k = some v) : (k, v) ∈ l := by
  unfold lookupA at h
  cases hf : l.find? (fun kv => kv.1 = k) with
  | none => rw [hf] at h; cases h
  | some kv =>
    rw [hf] at h
    have hmem := List.mem_of_find?_eq_some hf
    obtain ⟨k1, v1⟩ := kv
    have hkey : k1 = k := by simpa using List.find?_some hf
    have hv : v1 = v := by simpa using h
    subst hkey
    subst hv
    exact hmem

theorem mem_get_roots {w : World} {e : Entity} {r : EntityRec}
    (h : lookupA w e = some r) (hren : r.renderable = true) (hpar : r.parent = none) :
    e ∈ get_roots w := by
  unfold get_roots
  refine List.mem_map.mpr ⟨(e, r), ?_, rfl⟩
  refine List.mem_filter.mpr ⟨lookupA_pair_mem h, ?_⟩
  simp [hren, hpar]

/-- Effect of `reparent_linked` towards an existing new parent `p`: the child
ends up with `new_local = inverse(p.world) · world_transform` and its stored
world untouched, parented to `p` and listed among `p`'s children; `p` keeps
its transform component. -/
theorem reparent_linked_some (w : World) (child p : Entity) (wt : Transform)
    (cr : EntityRec) (tcc : TransformComponent) (pr : EntityRec)
    (hc : lookupA w child = some cr) (htcc : cr.transform = some tcc)
    (hp : lookupA w p = some pr)
    (hne : child ≠ p) (hocp : cr.parent ≠ some child) (hopp : cr.parent ≠ some p) :
    ∃ crF prF,
      lookupA (reparent_linked w child (some p) wt) child = some crF ∧
      crF.transform = some ⟨((pr.transform.map (·.world)).getD
        Transform.IDENTITY).inverse.multiply wt, tcc.world⟩ ∧
      crF.parent = some p ∧
      lookupA (reparent_linked w child (some p) wt) p = some prF ∧
      child ∈ prF.children.getD [] ∧ prF.transform = pr.transform := by
  have hstep1 : ∀ cr1, lookupA w child = some cr1 → cr1.parent ≠ some child := by
    intro cr1 hcr1
    rw [hc] at hcr1
    injection hcr1 with h
    subst h
    exact hocp
  have hstep1p : ∀ cr1, lookupA w child = some cr1 → cr1.parent ≠ some p := by
    intro cr1 hcr1
    rw [hc] at hcr1
    injection hcr1 with h
    subst h
    exact hopp
  have hcu : lookupA (unlinkFromParent w child) child = some cr :=
    (unlinkFromParent_lookup w child child hstep1).trans hc
  have hpu : lookupA (unlinkFromParent w child) p = some pr :=
    (unlinkFromParent_lookup w child p hstep1p).trans hp
  have hcm : lookupA (markParent (unlinkFromParent w child) child (some p)) child
      = some { cr with parent := some p, dirty := true } :=
    markParent_lookup_self _ child (some p) cr hcu
  have hpm : lookupA (markParent (unlinkFromParent w child) child (some p)) p = some pr :=
    (markParent_lookup_ne _ child p (some p) (Ne.symm hne)).trans hpu
  obtain ⟨prF, hsp, hmemF, htrF⟩ := relinkNew_parent _ child p pr hpm
  have hcs : lookupA (set_parent w child p) child
      = some { cr with parent := some p, dirty := true } := by
    show lookupA (relinkNew (markParent (unlinkFromParent w child) child (some p)) child p)
      child = _
    rw [relinkNew_lookup_ne _ child p child hne]
    exact hcm
  have hct1 : ({ cr with parent := some p, dirty := true } : EntityRec).transform
      = some tcc := htcc
  have hunf : reparent_linked w child (some p) wt
      = insertA (set_parent w child p) child
          { cr with
            parent := some p, dirty := true,
            transform := some ⟨((pr.transform.map (·.world)).getD
              Transform.IDENTITY).inverse.multiply wt, tcc.world⟩ } := by
    unfold reparent_linked
    simp only [hp, hcs, hct1, htcc]
  refine ⟨{ cr with
            parent := some p, dirty := true,
            transform := some ⟨((pr.transform.map (·.world)).getD
              Transform.IDENTITY).inverse.multiply wt, tcc.world⟩ }, prF, ?_, rfl, rfl, ?_,
          hmemF, htrF⟩
  · rw [hunf]
    exact lookupA_insertA_self _ child _
  · rw [hunf, lookupA_insertA_ne _ child p _ (Ne.symm hne)]
    exact hsp

/-- Effect of `reparent_linked` towards `None`: the child becomes parentless
with `new_local = inverse(IDENTITY) · world_transform` and its stored world,
renderability and the rest untouched. -/
theorem reparent_linked_none (w : World) (child : Entity) (wt : Transform)
    (cr : EntityRec) (tcc : TransformComponent)
    (hc : lookupA w child = some cr) (htcc : cr.transform = some tcc)
    (hocp : cr.parent ≠ some child) :
    ∃ crF,
      lookupA (reparent_linked w child none wt) child = some crF ∧
      crF.transform = some ⟨Transform.IDENTITY.inverse.multiply wt, tcc.world⟩ ∧
      crF.parent = none ∧ crF.renderable = cr.renderable := by
  have hstep1 : ∀ cr1, lookupA w child = some cr1 → cr1.parent ≠ some child := by
    intro cr1 hcr1
    rw [hc] at hcr1
    injection hcr1 with h
    subst h
    exact hocp
  have hcu : lookupA (unlinkFromParent w child) child = some cr :=
    (unlinkFromParent_lookup w child child hstep1).trans hc
  have hcm : lookupA (remove_parent w child) child
      = some { cr with parent := none, dirty := true } :=
    markParent_lookup_self _ child none cr hcu
  have hct1 : ({ cr with parent := none, dirty := true } : EntityRec).transform
      = some tcc := htcc
  have hunf : reparent_linked w child none wt
      = insertA (remove_parent w child) child
          { cr with
            parent := none, dirty := true,
            transform := some ⟨Transform.IDENTITY.inverse.multiply wt, tcc.world⟩ } := by
    unfold reparent_linked
    simp only [hcm, hct1, htcc]
  refine ⟨{ cr with
            parent := none, dirty := true,
            transform := some ⟨Transform.IDENTITY.inverse.multiply wt, tcc.world⟩ }, ?_,
    rfl, rfl, rfl⟩
  rw [hunf]
  exact lookupA_insertA_self _ child _

/-- The accumulated parent transform `propagate_transforms` passes into an
entity: the identity at a root, extended along stored children edges. -/
inductive AccT (w : World) : Entity → Transform → Prop where
  | root : ∀ e, e ∈ get_roots w → AccT w e Transform.IDENTITY
  | child : ∀ p pt rp e, AccT w p pt → lookupA w p = some rp →
      e ∈ rp.children.getD [] → AccT w e (pt.multiply (nodeLocal rp))

theorem AccT_stable {w w' : World} (h : StableF w w') :
    ∀ {e : Entity} {pt : Transform}, AccT w e pt → AccT w' e pt := by
  intro e pt hacc
  induction hacc with
  | root e he =>
    exact AccT.root e (by rw [get_roots_stable h]; exact he)
  | child p pt rp e hp hrp hmem ih =>
    obtain ⟨rp', hrp', hst⟩ := StableF_lookup_some h p rp hrp
    have hnl : nodeLocal rp' = nodeLocal rp := stableEq_nodeLocal hst
    rw [← hnl]
    exact AccT.child p pt rp' e ih hrp' (by rw [hst.1]; exact hmem)

theorem CF_focus {w : World} :
    ∀ {pt : Transform} {es fl : List Entity}, CleanForest w pt es fl →
      ∀ e ∈ es, ∃ fl', CleanForest w pt [e] fl' := by
  intro pt es fl h
  induction h with
  | nil => intro e he; cases he
  | cons pt e r es fl fls hr hw hd hb hc hs ihc ihs =>
    intro k hk
    rcases List.mem_cons.mp hk with rfl | hk
    · exact ⟨k :: (fl ++ []), CleanForest.cons pt k r [] fl [] hr hw hd hb hc
        (CleanForest.nil pt)⟩
    · exact ihs k hk

theorem CF_singleton {w : World} {pt : Transform} {e : Entity} {fl : List Entity}
    (h : CleanForest w pt [e] fl) (r : EntityRec) (hr : lookupA w e = some r) :
    (∀ tc, r.transform = some tc → tc.world = pt.multiply (nodeLocal r)) ∧
    ∃ flc, CleanForest w (pt.multiply (nodeLocal r)) (r.children.getD []) flc := by
  cases h with
  | cons pt e r' es flc fls hr' hw hd hb hc hs =>
    rw [hr] at hr'
    injection hr' with h2
    subst h2
    exact ⟨hw, flc, hc⟩

theorem AccT_clean {w : World} {fl : List Entity}
    (hclean : CleanForest w Transform.IDENTITY (get_roots w) fl) :
    ∀ {e : Entity} {pt : Transform}, AccT w e pt →
      ∃ fl', CleanForest w pt [e] fl' := by
  intro e pt hacc
  induction hacc with
  | root e he => exact CF_focus hclean e he
  | child p pt rp e hp hrp hmem ih =>
    obtain ⟨flp, hflp⟩ := ih
    obtain ⟨-, flc, hc⟩ := CF_singleton hflp rp hrp
    exact CF_focus hc e hmem

/-- On a fully propagated world, an entity reached with accumulated transform
`pt` stores world transform `pt · local`. -/
theorem AccT_world {w : World} {fl : List Entity}
    (hclean : CleanForest w Transform.IDENTITY (get_roots w) fl)
    {e : Entity} {pt : Transform} (hacc : AccT w e pt)
    {r : EntityRec} (hr : lookupA w e = some r)
    {tc : TransformComponent} (htc : r.transform = some tc) :
    tc.world = pt.multiply (nodeLocal r) := by
  obtain ⟨fl', hfl'⟩ := AccT_clean hclean hacc
  exact (CF_singleton hfl' r hr).1 tc htc

/-- C5: `reparent_preserve_world(child, new_parent)` preserves the child's
stored world transform.  Reparenting under an existing parent `p` (first
conjunct): if the relinked world is a well-formed scene forest, `p`'s world
transform is invertible and consistent with its position in that forest
(it equals the accumulated transform into `p` times `p`'s local transform),
then after the call the child's stored world transform equals its value before
the call, because `new_local = inverse(p.world) · world` and re-propagation
assigns `p.world · new_local = world`.  Removing the parent (second conjunct):
a renderable child keeps its world transform, `new_local = inverse(IDENTITY) ·
world = world` and the child is re-propagated as a root. -/
theorem c5_reparent_preserve_world :
    (∀ (w : World) (child p : Entity) (cr pr : EntityRec)
       (tcc tcp : TransformComponent) (ptp : Transform) (fl : List Entity),
      lookupA w child = some cr → cr.transform = some tcc →
      lookupA w p = some pr → pr.transform = some tcp →
      child ≠ p → cr.parent ≠ some child → cr.parent ≠ some p →
      tcp.world.a * tcp.world.d - tcp.world.b * tcp.world.c ≠ 0 →
      WFForest (reparent_linked w child (some p) tcc.world) fl →
      AccT (reparent_linked w child (some p) tcc.world) p ptp →
      tcp.world = ptp.multiply (nodeLocal pr) →
      ∃ rF tcF, lookupA (reparent_preserve_world w child (some p)) child = some rF ∧
        rF.transform = some tcF ∧ tcF.world = tcc.world) ∧
    (∀ (w : World) (child : Entity) (cr : EntityRec) (tcc : TransformComponent)
       (fl : List Entity),
      lookupA w child = some cr → cr.transform = some tcc →
      cr.parent ≠ some child → cr.renderable = true →
      WFForest (reparent_linked w child none tcc.world) fl →
      ∃ rF tcF, lookupA (reparent_preserve_world w child none) child = some rF ∧
        rF.transform = some tcF ∧ tcF.world = tcc.world) := by
  constructor
  · intro w child p cr pr tcc tcp ptp fl hc htcc hp htcp hne hocp hopp hdet hwf hacc hW
    have hre : reparent_preserve_world w child (some p)
        = propagate_transforms (reparent_linked w child (some p) tcc.world) := by
      unfold reparent_preserve_world
      simp only [hc, htcc]
      rfl
    obtain ⟨crF, prF, hcF, htF, hpF, hpFl, hmemF, htrF⟩ :=
      reparent_linked_some w child p tcc.world cr tcc pr hc htcc hp hne hocp hopp
    have hPW : ((pr.transform.map (·.world)).getD Transform.IDENTITY) = tcp.world := by
      simp [htcp]
    rw [hPW] at htF
    obtain ⟨hstable, hclean⟩ := propagate_transforms_spec _ fl hwf
    have hclean' : CleanForest
        (propagate_transforms (reparent_linked w child (some p) tcc.world))
        Transform.IDENTITY
        (get_roots (propagate_transforms (reparent_linked w child (some p) tcc.world)))
        fl := by
      rw [get_roots_stable hstable]
      exact hclean
    have hacc3 := AccT_stable hstable hacc
    obtain ⟨prF3, hpF3, hstp⟩ := StableF_lookup_some hstable p prF hpFl
    obtain ⟨crF3, hcF3, hstc⟩ := StableF_lookup_some hstable child crF hcF
    have hmap : crF3.transform.map (·.loc) = crF.transform.map (·.loc) := hstc.2.2.2.1
    rw [htF] at hmap
    cases htcF3 : crF3.transform with
    | none => rw [htcF3] at hmap; simp at hmap
    | some tcF3 =>
      rw [htcF3] at hmap
      have hloc3 : tcF3.loc = tcp.world.inverse.multiply tcc.world := by
        simpa using hmap
      have hmem3 : child ∈ prF3.children.getD [] := by
        rw [hstp.1]
        exact hmemF
      have haccc : AccT (propagate_transforms (reparent_linked w child (some p) tcc.world))
          child (ptp.multiply (nodeLocal prF3)) :=
        AccT.child p ptp prF3 child hacc3 hpF3 hmem3
      have hworld := AccT_world hclean' haccc hcF3 htcF3
      have hnlp : nodeLocal prF3 = nodeLocal pr := by
        have h1 : nodeLocal prF3 = nodeLocal prF := stableEq_nodeLocal hstp
        rw [h1]
        unfold nodeLocal
        rw [htrF]
      have hnlc : nodeLocal crF3 = tcp.world.inverse.multiply tcc.world := by
        unfold nodeLocal
        rw [htcF3]
        simpa using hloc3
      refine ⟨crF3, tcF3, ?_, htcF3, ?_⟩
      · rw [hre]
        exact hcF3
      · rw [hworld, hnlp, hnlc, ← hW, ← Transform.multiply_assoc,
          Transform.multiply_inverse tcp.world hdet, Transform.IDENTITY_multiply]
  · intro w child cr tcc fl hc htcc hocp hren hwf
    have hre : reparent_preserve_world w child none
        = propagate_transforms (reparent_linked w child none tcc.world) := by
      unfold reparent_preserve_world
      simp only [hc, htcc]
      rfl
    obtain ⟨crF, hcF, htF, hparF, hrenF⟩ :=
      reparent_linked_none w child tcc.world cr tcc hc htcc hocp
    obtain ⟨hstable, hclean⟩ := propagate_transforms_spec _ fl hwf
    have hclean' : CleanForest
        (propagate_transforms (reparent_linked w child none tcc.world))
        Transform.IDENTITY
        (get_roots (propagate_transforms (reparent_linked w child none tcc.world)))
        fl := by
      rw [get_roots_stable hstable]
      exact hclean
    have hroot : child ∈ get_roots (reparent_linked w child none tcc.world) :=
      mem_get_roots hcF (by rw [hrenF]; exact hren) hparF
    have hroot3 : child ∈ get_roots
        (propagate_transforms (reparent_linked w child none tcc.world)) := by
      rw [get_roots_stable hstable]
      exact hroot
    obtain ⟨crF3, hcF3, hstc⟩ := StableF_lookup_some hstable child crF hcF
    have hmap : crF3.transform.map (·.loc) = crF.transform.map (·.loc) := hstc.2.2.2.1
    rw [htF] at hmap
    cases htcF3 : crF3.transform with
    | none => rw [htcF3] at hmap; simp at hmap
    | some tcF3 =>
      rw [htcF3] at hmap
      have hloc3 : tcF3.loc = Transform.IDENTITY.inverse.multiply tcc.world := by
        simpa using hmap
      have hworld := CleanForest_top hclean' child hroot3 crF3 hcF3 tcF3 htcF3
      have hnlc : nodeLocal crF3 = Transform.IDENTITY.inverse.multiply tcc.world := by
        unfold nodeLocal
        rw [htcF3]
        simpa using hloc3
      refine ⟨crF3, tcF3, ?_, htcF3, ?_⟩
      · rw [hre]
        exact hcF3
      · rw [hworld, hnlc, Transform.inverse_IDENTITY, Transform.IDENTITY_multiply,
          Transform.IDENTITY_multiply]

/-- Parent transform of the C5 witness: translation by (5, 7). -/
def c5T : Transform := ⟨1, 0, 0, 1, 5, 7⟩

/-- Parent record of the C5 witness: a consistent root (world = local). -/
def c5pRec : EntityRec :=
  { transform := some ⟨c5T, c5T⟩, z_index := none, visibility := none,
    parent := none, children := some [], dirty := false,
    local_bounds := none, world_bounds := none, renderable := true }

/-- Child record of the C5 witness: a root at the identity. -/
def c5cRec : EntityRec :=
  { transform := some ⟨Transform.IDENTITY, Transform.IDENTITY⟩, z_index := none,
    visibility := none, parent := none, children := none, dirty := false,
    local_bounds := none, world_bounds := none, renderable := true }

/-- C5 witness world for the some-parent case. -/
def c5w : World := [(1, c5pRec), (2, c5cRec)]

/-- The relinked world of the some-parent case. -/
def c5w2 : World := reparent_linked c5w 2 (some 1) Transform.IDENTITY

/-- Entity 1's record in the relinked world. -/
def c5r1 : EntityRec := (lookupA c5w2 1).getD c5cRec

/-- Entity 2's record in the relinked world. -/
def c5r2 : EntityRec := (lookupA c5w2 2).getD c5cRec

/-- The relinked witness world is a well-formed forest (2 now under 1). -/
theorem c5w2_wf : WFForest c5w2 [1, 2] :=
  ⟨Forest.cons 1 c5r1 [] [2] [] rfl
      (Forest.cons 2 c5r2 [] [] [] rfl Forest.nil Forest.nil) Forest.nil,
   by decide, by decide, by decide⟩

/-- The witness parent world transform is invertible. -/
theorem c5_det_ne : c5T.a * c5T.d - c5T.b * c5T.c ≠ 0 := by
  norm_num [c5T]

/-- The witness parent is consistent as a root: world = IDENTITY · local. -/
theorem c5_parent_consistent :
    c5T = Transform.IDENTITY.multiply (nodeLocal c5pRec) := by
  rw [Transform.IDENTITY_multiply]
  rfl

/-- Child world transform of the C5 witness none case. -/
def c5cwB : Transform := ⟨2, 0, 0, 2, 3, 4⟩

/-- Parent record of the none case: lists 2 as its child. -/
def c5pRecB : EntityRec := { c5pRec with children := some [2] }

/-- Child record of the none case: parented under 1. -/
def c5cRecB : EntityRec :=
  { transform := some ⟨Transform.IDENTITY, c5cwB⟩, z_index := none, visibility := none,
    parent := some 1, children := none, dirty := false,
    local_bounds := none, world_bounds := none, renderable := true }

/-- C5 witness world for the none case. -/
def c5wB : World := [(1, c5pRecB), (2, c5cRecB)]

/-- The relinked world of the none case. -/
def c5w2B : World := reparent_linked c5wB 2 none c5cwB

/-- Entity 1's record in the none-case relinked world. -/
def c5r1B : EntityRec := (lookupA c5w2B 1).getD c5cRec

/-- Entity 2's record in the none-case relinked world. -/
def c5r2B : EntityRec := (lookupA c5w2B 2).getD c5cRec

/-- The none-case relinked world is a well-formed forest (both are roots). -/
theorem c5w2B_wf : WFForest c5w2B [1, 2] :=
  ⟨Forest.cons 1 c5r1B [2] [] [2] rfl Forest.nil
      (Forest.cons 2 c5r2B [] [] [] rfl Forest.nil Forest.nil),
   by decide, by decide, by decide⟩

/-- C5 witness: reparenting child 2 (world = IDENTITY) under parent 1 (world =
translation (5, 7)) preserves the child's world transform, and unparenting the
none-case child preserves its world transform `c5cwB`. -/
theorem c5_reparent_preserve_world_witness :
    (∃ rF tcF, lookupA (reparent_preserve_world c5w 2 (some 1)) 2 = some rF ∧
       rF.transform = some tcF ∧ tcF.world = Transform.IDENTITY) ∧
    (∃ rF tcF, lookupA (reparent_preserve_world c5wB 2 none) 2 = some rF ∧
       rF.transform = some tcF ∧ tcF.world = c5cwB) :=
  ⟨c5_reparent_preserve_world.1 c5w 2 1 c5cRec c5pRec
      ⟨Transform.IDENTITY, Transform.IDENTITY⟩ ⟨c5T, c5T⟩ Transform.IDENTITY [1, 2]
      rfl rfl rfl rfl (by decide) (by decide) (by decide) c5_det_ne c5w2_wf
      (AccT.root 1 (by decide)) c5_parent_consistent,
   c5_reparent_preserve_world.2 c5wB 2 c5cRecB ⟨Transform.IDENTITY, c5cwB⟩ [1, 2]
      rfl rfl (by decide) rfl c5w2B_wf⟩

end Canvas
